import Mathlib

/-!
Verification development for the workflow-graph core of this repository.

The repository ships one executable source file,
`apps/sim/stores/workflows/registry/utils.ts` (the workflow-color registry
helpers), which is embedded directly below.  The remaining capabilities that
the specification describes — the graph model, the codec, the diff engine,
the merge engine and the layout engine — are documented (README, plan and
endpoint documents) but their implementation files are not part of the
source tree here; following the specification they are modelled faithfully
from its component contracts (sections 3, 4.2, 4.4, 4.5 and 4.6), and every
such definition is marked `Modelled from the spec:` in its doc comment.

Conventions of the embedding: machine numbers are `Nat`/`Int`, JavaScript's
`Math.random()` sample is an explicit rational input, fallible operations
return `Option`/`Except`, and all definitions are computable.
-/

/-! ## Lexicographic order on strings

Modelled from the spec: the codec sorts blocks "by id (lexicographic) for
determinism" and the grid layout breaks ties "by block id (lexicographic)".
We use a character-code lexicographic comparison on the underlying
character lists; it is total, transitive and antisymmetric.
-/

/-- Lexicographic less-or-equal on character lists, comparing code points. -/
def lexLe : List Char → List Char → Bool
  | [], _ => true
  | _ :: _, [] => false
  | a :: as, b :: bs =>
    if a.toNat < b.toNat then true
    else if b.toNat < a.toNat then false
    else lexLe as bs

/-- Lexicographic less-or-equal on strings (code-point order). -/
def strLe (s t : String) : Bool := lexLe s.data t.data

theorem lexLe_refl (l : List Char) : lexLe l l = true := by
  induction l with
  | nil => rfl
  | cons a as ih => simp [lexLe, ih]

theorem lexLe_total (l m : List Char) : lexLe l m = true ∨ lexLe m l = true := by
  induction l generalizing m with
  | nil => left; rfl
  | cons a as ih =>
    cases m with
    | nil => right; rfl
    | cons b bs =>
      rcases Nat.lt_trichotomy a.toNat b.toNat with h | h | h
      · left; simp [lexLe, h]
      · have hnr : ¬ a.toNat < b.toNat := by omega
        have hnl : ¬ b.toNat < a.toNat := by omega
        rcases ih bs with hc | hc
        · left; simp [lexLe, hnr, hnl, hc]
        · right; simp [lexLe, hnr, hnl, hc]
      · right; simp [lexLe, h]

theorem lexLe_antisymm {l m : List Char} (h₁ : lexLe l m = true)
    (h₂ : lexLe m l = true) : l = m := by
  induction l generalizing m with
  | nil =>
    cases m with
    | nil => rfl
    | cons b bs => simp [lexLe] at h₂
  | cons a as ih =>
    cases m with
    | nil => simp [lexLe] at h₁
    | cons b bs =>
      by_cases hab : a.toNat < b.toNat
      · have : ¬ b.toNat < a.toNat := by omega
        simp [lexLe, hab, this] at h₂
      · by_cases hba : b.toNat < a.toNat
        · simp [lexLe, hab, hba] at h₁
        · have hval : a.toNat = b.toNat := by omega
          have hchar : a = b := by
            rw [← Char.ofNat_toNat a, ← Char.ofNat_toNat b, hval]
          simp [lexLe, hab, hba] at h₁ h₂
          rw [hchar, ih h₁ h₂]

theorem lexLe_trans {l m n : List Char} (h₁ : lexLe l m = true)
    (h₂ : lexLe m n = true) : lexLe l n = true := by
  induction l generalizing m n with
  | nil => rfl
  | cons a as ih =>
    cases m with
    | nil => simp [lexLe] at h₁
    | cons b bs =>
      cases n with
      | nil => simp [lexLe] at h₂
      | cons c cs =>
        by_cases hab : a.toNat < b.toNat
        · by_cases hbc : b.toNat < c.toNat
          · have : a.toNat < c.toNat := by omega
            simp [lexLe, this]
          · by_cases hcb : c.toNat < b.toNat
            · simp [lexLe, hbc, hcb] at h₂
            · have : a.toNat < c.toNat := by omega
              simp [lexLe, this]
        · by_cases hba : b.toNat < a.toNat
          · simp [lexLe, hab, hba] at h₁
          · by_cases hbc : b.toNat < c.toNat
            · have : a.toNat < c.toNat := by omega
              simp [lexLe, this]
            · by_cases hcb : c.toNat < b.toNat
              · simp [lexLe, hbc, hcb] at h₂
              · have hnac : ¬ a.toNat < c.toNat := by omega
                have hnca : ¬ c.toNat < a.toNat := by omega
                simp [lexLe, hab, hba] at h₁
                simp [lexLe, hbc, hcb] at h₂
                simp [lexLe, hnac, hnca]
                exact ih h₁ h₂

theorem strLe_refl (s : String) : strLe s s = true := lexLe_refl s.data

theorem strLe_total (s t : String) : strLe s t = true ∨ strLe t s = true :=
  lexLe_total s.data t.data

theorem strLe_trans {s t u : String} (h₁ : strLe s t = true)
    (h₂ : strLe t u = true) : strLe s u = true := lexLe_trans h₁ h₂

theorem strLe_antisymm {s t : String} (h₁ : strLe s t = true)
    (h₂ : strLe t s = true) : s = t := by
  cases s; cases t
  have := lexLe_antisymm h₁ h₂
  simp_all

/-! ## Configuration values

Modelled from the spec: "mapping of configuration keys to typed values
(string/number/bool/nested-map — a small recursive value union)" (section 3)
and "an explicit small recursive value union (string | number | bool | list
| map)" (section 9).  The three types are a mutual inductive so that all
recursive functions over them are structural (and hence evaluate inside
`decide`).
-/

mutual
/-- A configuration value: string, number, boolean, list or nested map. -/
inductive CV where
  | str (s : String)
  | num (n : Int)
  | boolean (b : Bool)
  | list (xs : CVList)
  | map (m : CVMap)
/-- A list of configuration values. -/
inductive CVList where
  | nil
  | cons (v : CV) (t : CVList)
/-- A configuration map: ordered key/value pairs. -/
inductive CVMap where
  | nil
  | cons (k : String) (v : CV) (t : CVMap)
end

mutual
/-- Structural boolean equality on configuration values. -/
def CV.beq : CV → CV → Bool
  | .str a, .str b => a == b
  | .num a, .num b => a == b
  | .boolean a, .boolean b => a == b
  | .list xs, .list ys => CVList.beq xs ys
  | .map xs, .map ys => CVMap.beq xs ys
  | _, _ => false
/-- Structural boolean equality on configuration value lists. -/
def CVList.beq : CVList → CVList → Bool
  | .nil, .nil => true
  | .cons x xs, .cons y ys => CV.beq x y && CVList.beq xs ys
  | _, _ => false
/-- Structural boolean equality on configuration maps. -/
def CVMap.beq : CVMap → CVMap → Bool
  | .nil, .nil => true
  | .cons k v t, .cons l w u => k == l && CV.beq v w && CVMap.beq t u
  | _, _ => false
end

mutual
theorem cv_beq_refl : ∀ a : CV, CV.beq a a = true
  | .str a => by simp [CV.beq]
  | .num a => by simp [CV.beq]
  | .boolean a => by simp [CV.beq]
  | .list xs => by simp [CV.beq, cvlist_beq_refl xs]
  | .map xs => by simp [CV.beq, cvmap_beq_refl xs]
theorem cvlist_beq_refl : ∀ xs : CVList, CVList.beq xs xs = true
  | .nil => rfl
  | .cons x xs => by simp [CVList.beq, cv_beq_refl x, cvlist_beq_refl xs]
theorem cvmap_beq_refl : ∀ m : CVMap, CVMap.beq m m = true
  | .nil => rfl
  | .cons k v t => by simp [CVMap.beq, cv_beq_refl v, cvmap_beq_refl t]
end

mutual
theorem cv_eq_of_beq : ∀ {a b : CV}, CV.beq a b = true → a = b
  | .str _, .str _, h => by simp [CV.beq] at h; simp [h]
  | .str _, .num _, h => by simp [CV.beq] at h
  | .str _, .boolean _, h => by simp [CV.beq] at h
  | .str _, .list _, h => by simp [CV.beq] at h
  | .str _, .map _, h => by simp [CV.beq] at h
  | .num _, .str _, h => by simp [CV.beq] at h
  | .num _, .num _, h => by simp [CV.beq] at h; simp [h]
  | .num _, .boolean _, h => by simp [CV.beq] at h
  | .num _, .list _, h => by simp [CV.beq] at h
  | .num _, .map _, h => by simp [CV.beq] at h
  | .boolean _, .str _, h => by simp [CV.beq] at h
  | .boolean _, .num _, h => by simp [CV.beq] at h
  | .boolean _, .boolean _, h => by simp [CV.beq] at h; simp [h]
  | .boolean _, .list _, h => by simp [CV.beq] at h
  | .boolean _, .map _, h => by simp [CV.beq] at h
  | .list _, .str _, h => by simp [CV.beq] at h
  | .list _, .num _, h => by simp [CV.beq] at h
  | .list _, .boolean _, h => by simp [CV.beq] at h
  | .list xs, .list ys, h => by
      simp only [CV.beq] at h
      rw [cvlist_eq_of_beq h]
  | .list _, .map _, h => by simp [CV.beq] at h
  | .map _, .str _, h => by simp [CV.beq] at h
  | .map _, .num _, h => by simp [CV.beq] at h
  | .map _, .boolean _, h => by simp [CV.beq] at h
  | .map _, .list _, h => by simp [CV.beq] at h
  | .map xs, .map ys, h => by
      simp only [CV.beq] at h
      rw [cvmap_eq_of_beq h]
theorem cvlist_eq_of_beq : ∀ {xs ys : CVList}, CVList.beq xs ys = true → xs = ys
  | .nil, .nil, _ => rfl
  | .nil, .cons _ _, h => by simp [CVList.beq] at h
  | .cons _ _, .nil, h => by simp [CVList.beq] at h
  | .cons x xs, .cons y ys, h => by
      simp only [CVList.beq, Bool.and_eq_true] at h
      rw [cv_eq_of_beq h.1, cvlist_eq_of_beq h.2]
theorem cvmap_eq_of_beq : ∀ {xs ys : CVMap}, CVMap.beq xs ys = true → xs = ys
  | .nil, .nil, _ => rfl
  | .nil, .cons _ _ _, h => by simp [CVMap.beq] at h
  | .cons _ _ _, .nil, h => by simp [CVMap.beq] at h
  | .cons k v t, .cons l w u, h => by
      simp only [CVMap.beq, Bool.and_eq_true] at h
      obtain ⟨⟨hk, hv⟩, ht⟩ := h
      rw [eq_of_beq hk, cv_eq_of_beq hv, cvmap_eq_of_beq ht]
end

instance : DecidableEq CV := fun a b =>
  decidable_of_iff (CV.beq a b = true)
    ⟨cv_eq_of_beq, fun h => h ▸ cv_beq_refl a⟩

instance : DecidableEq CVList := fun a b =>
  decidable_of_iff (CVList.beq a b = true)
    ⟨cvlist_eq_of_beq, fun h => h ▸ cvlist_beq_refl a⟩

instance : DecidableEq CVMap := fun a b =>
  decidable_of_iff (CVMap.beq a b = true)
    ⟨cvmap_eq_of_beq, fun h => h ▸ cvmap_beq_refl a⟩

/-! ## Graph model

Modelled from the spec, section 3: blocks (unique string id, type tag,
config map, optional position, optional parent), directed edges given by
source/target block id and port name, and graph-level metadata (name,
version counter).
-/

/-- A workflow block.  Modelled from the spec: "unique identifier (string),
type tag (string), mapping of configuration keys to typed values, optional
spatial position (x, y)". -/
structure Block where
  id : String
  typeTag : String
  config : CVMap
  position : Option (Int × Int)
deriving DecidableEq

/-- A directed edge.  Modelled from the spec: "ordered pair (source Block id
+ source port, target Block id + target port)". -/
structure Edge where
  src : String
  srcPort : String
  tgt : String
  tgtPort : String
deriving DecidableEq

/-- A workflow graph.  Modelled from the spec: "set of Blocks (unique ids),
set of Edges referencing only existing Block/Port pairs, and graph-level
metadata (name, version counter)". -/
structure Graph where
  name : String
  version : Nat
  blocks : List Block
  edges : List Edge
deriving DecidableEq

/-- The list of block identifiers of a graph. -/
def Graph.blockIds (g : Graph) : List String := g.blocks.map (·.id)

/-- Lookup of a block by identifier (first match). -/
def Graph.findBlock (g : Graph) (i : String) : Option Block :=
  g.blocks.find? (fun b => b.id = i)

/-- Every edge endpoint references an existing block id. -/
def Graph.EdgesClosed (g : Graph) : Prop :=
  ∀ e ∈ g.edges, e.src ∈ g.blockIds ∧ e.tgt ∈ g.blockIds

instance (g : Graph) : Decidable g.EdgesClosed := by
  unfold Graph.EdgesClosed; infer_instance

/-- The graph invariant of spec section 3: no duplicate block ids, no
duplicate edges, and every edge endpoint exists. -/
def Graph.Valid (g : Graph) : Prop :=
  g.blockIds.Nodup ∧ g.edges.Nodup ∧ g.EdgesClosed

instance (g : Graph) : Decidable g.Valid := by
  unfold Graph.Valid; infer_instance

/-- Structural equality of graphs up to the order in which blocks and edges
are listed: same metadata, same set of blocks (ids, types, configs and
positions all preserved), same set of edges. -/
def Graph.Equiv (g₁ g₂ : Graph) : Prop :=
  g₁.name = g₂.name ∧ g₁.version = g₂.version ∧
    g₁.blocks.Perm g₂.blocks ∧ g₁.edges.Perm g₂.edges

/-! ## Workflow color registry

Translated from `apps/sim/stores/workflows/registry/utils.ts`.  The source
reads `WORKFLOW_COLORS[Math.floor(Math.random() * WORKFLOW_COLORS.length)]`;
we embed the `Math.random()` sample as an explicit rational argument `r`,
and an out-of-range JavaScript array access (which yields `undefined`) as
`none`.
-/

/-- The available workflow colors, exactly as listed in
`apps/sim/stores/workflows/registry/utils.ts`. -/
def WORKFLOW_COLORS : List String :=
  [ "#363636", "#242f40", "#cca43b", "#e5e5e5"
  , "#8B4513", "#A0522D", "#CD853F", "#DAA520"
  , "#1e3a5f", "#2c4f73", "#34568B", "#4682B4"
  , "#556B2F", "#6B8E23", "#8FBC8F", "#9ACD32"
  , "#2F4F4F", "#696969", "#708090", "#778899"
  , "#B8860B", "#CD9B1D", "#D2691E", "#DC143C"
  , "#483D8B", "#4B0082", "#800080", "#8B008B"
  , "#2F4F4F", "#5F8A8B", "#4682B4", "#6495ED"
  , "#8B4513", "#A0522D", "#CD853F", "#D2691E"
  , "#F6397A", "#F5296A", "#F7498A"
  , "#DC143C", "#CC042C", "#EC243C", "#BC003C", "#FC343C"
  , "#00FF7F", "#00EF6F", "#00DF5F"
  , "#6A5ACD", "#5A4ABD", "#4A3AAD"
  , "#FFBF00", "#EFAF00", "#DF9F00" ]

theorem WORKFLOW_COLORS_length : WORKFLOW_COLORS.length = 53 := rfl

/-- Translation of `getNextWorkflowColor`: the `Math.random()` result is the
explicit input `r`, `Math.floor` is the rational floor, and a JavaScript
out-of-bounds array read is `none`. -/
def getNextWorkflowColor (r : ℚ) : Option String :=
  let i : Int := ⌊r * (WORKFLOW_COLORS.length : ℚ)⌋
  if i < 0 then none else WORKFLOW_COLORS.get? i.toNat

/-- An invocation of `getNextWorkflowColor` in an arbitrary ambient program
state `st`: the function reads no program state besides the random sample,
so the state parameter is never consulted. -/
def getNextWorkflowColorIn (_st : Nat) (r : ℚ) : Option String :=
  getNextWorkflowColor r

/-- A concrete random sample, 1/2, used to exercise the color picker. -/
def rHalf : ℚ := Rat.mk' 1 2

/-- Whether a string is a CSS hex color: a hash sign followed by exactly six
hexadecimal digits. -/
def isHexColor (s : String) : Bool :=
  match s.data with
  | '#' :: rest => rest.length == 6 && rest.all (fun c =>
      (48 ≤ c.toNat && c.toNat ≤ 57) || (97 ≤ c.toNat && c.toNat ≤ 102) ||
        (65 ≤ c.toNat && c.toNat ≤ 70))
  | _ => false

/-- C8: for every random sample r in [0, 1), the computed index
floor(r * WORKFLOW_COLORS.length) is in bounds, so `getNextWorkflowColor`
returns an element of `WORKFLOW_COLORS` and never `undefined`. -/
theorem claim_C8 (r : ℚ) (h0 : 0 ≤ r) (h1 : r < 1) :
    ∃ c, getNextWorkflowColor r = some c ∧ c ∈ WORKFLOW_COLORS := by
  have hcast : (WORKFLOW_COLORS.length : ℚ) = (53 : ℚ) := by
    rw [WORKFLOW_COLORS_length]; norm_num
  have hpos : 0 ≤ ⌊r * (WORKFLOW_COLORS.length : ℚ)⌋ :=
    Int.floor_nonneg.mpr (mul_nonneg h0 (by rw [hcast]; norm_num))
  have hlt : ⌊r * (WORKFLOW_COLORS.length : ℚ)⌋ < (53 : ℤ) := by
    apply Int.floor_lt.mpr
    rw [hcast]
    calc r * 53 < 1 * 53 := by
          apply mul_lt_mul_of_pos_right h1; norm_num
      _ = ((53 : ℤ) : ℚ) := by norm_num
  have hnat : ⌊r * (WORKFLOW_COLORS.length : ℚ)⌋.toNat < WORKFLOW_COLORS.length := by
    show ⌊r * (WORKFLOW_COLORS.length : ℚ)⌋.toNat < 53
    omega
  refine ⟨WORKFLOW_COLORS.get ⟨_, hnat⟩, ?_, List.get_mem _ _ hnat⟩
  unfold getNextWorkflowColor
  simp only [if_neg (not_lt.mpr hpos)]
  exact List.get?_eq_get hnat

/-- C8 witness: the bound holds at the concrete sample 1/2. -/
theorem claim_C8_witness :
    0 ≤ rHalf ∧ rHalf < 1 ∧
      ∃ c, getNextWorkflowColor rHalf = some c ∧ c ∈ WORKFLOW_COLORS :=
  ⟨by decide, by decide, claim_C8 rHalf (by decide) (by decide)⟩

/-- C9: every entry of `WORKFLOW_COLORS` is a 7-character well-formed CSS
hex color: a hash sign followed by exactly six hexadecimal digits. -/
theorem claim_C9 :
    ∀ c ∈ WORKFLOW_COLORS, isHexColor c = true ∧ c.length = 7 := by decide

/-- C9 witness: the first listed color is well formed. -/
theorem claim_C9_witness :
    "#363636" ∈ WORKFLOW_COLORS ∧
      isHexColor "#363636" = true ∧ ("#363636" : String).length = 7 :=
  ⟨by decide, claim_C9 "#363636" (by decide)⟩

/-- C10: with the random sample made explicit, `getNextWorkflowColor` is a
deterministic pure function of the sample alone — invocations in any two
ambient program states with the same sample agree — while two invocations
with different samples can return different colors (the function is
randomized when the sample is not fixed). -/
theorem claim_C10 :
    (∀ st₁ st₂ : Nat, ∀ r : ℚ,
        getNextWorkflowColorIn st₁ r = getNextWorkflowColorIn st₂ r) ∧
    (∀ r₁ r₂ : ℚ, r₁ = r₂ → getNextWorkflowColor r₁ = getNextWorkflowColor r₂) ∧
    getNextWorkflowColor 0 ≠ getNextWorkflowColor rHalf := by
  refine ⟨fun st₁ st₂ r => rfl, fun r₁ r₂ h => h ▸ rfl, ?_⟩
  have h0 : getNextWorkflowColor 0 = some "#363636" := by
    unfold getNextWorkflowColor
    norm_num
    rfl
  have hh : getNextWorkflowColor rHalf = some "#800080" := by
    have hr : rHalf = (53 : ℤ) / ((106 : ℕ) : ℚ) := by
      rw [show rHalf = ((1 : ℤ) : ℚ) / ((2 : ℕ) : ℚ) from (Rat.num_div_den rHalf).symm]
      norm_num
    unfold getNextWorkflowColor
    rw [WORKFLOW_COLORS_length, hr]
    have : ((53 : ℤ) : ℚ) / ((106 : ℕ) : ℚ) * ((53 : ℕ) : ℚ) =
        ((2809 : ℤ) : ℚ) / ((106 : ℕ) : ℚ) := by push_cast; ring
    rw [this, Rat.floor_intCast_div_natCast]
    norm_num
    rfl
  rw [h0, hh]
  simp

/-- C10 witness: the purity conjunct instantiated at two concrete ambient
states and the concrete sample 1/2. -/
theorem claim_C10_witness :
    getNextWorkflowColorIn 0 rHalf = getNextWorkflowColorIn 37 rHalf :=
  claim_C10.1 0 37 rHalf

/-! ## Diff engine

Modelled from the spec, sections 3 and 4.4: blocks are matched by
identifier; a block id present only in the base yields RemoveBlock, only in
the target AddBlock; present in both with differing config
UpdateBlockConfig, with differing position MoveBlock.  Edges are matched by
their endpoint pair; pairs unique to the base yield RemoveEdge, unique to
the target AddEdge.  Operations are emitted in the fixed order removals,
additions, updates, moves (edge removals before block removals and block
additions before edge additions, so that no intermediate state has a
dangling edge).
-/

/-- A diff operation.  Modelled from the spec: "tagged variant over
{AddBlock, RemoveBlock, UpdateBlockConfig(old,new), MoveBlock(old,new),
AddEdge, RemoveEdge}.  Each carries enough data to be applied independently
and to be reversed". -/
inductive DiffOp where
  | addBlock (b : Block)
  | removeBlock (b : Block)
  | updateConfig (i : String) (oldC newC : CVMap)
  | moveBlock (i : String) (oldP newP : Option (Int × Int))
  | addEdge (e : Edge)
  | removeEdge (e : Edge)
deriving DecidableEq

/-- The stable path reference of an operation (block id, or edge endpoint
pair), used by the merge engine to report which entity a conflicting
operation targets. -/
def DiffOp.path : DiffOp → String ⊕ Edge
  | .addBlock b => .inl b.id
  | .removeBlock b => .inl b.id
  | .updateConfig i _ _ => .inl i
  | .moveBlock i _ _ => .inl i
  | .addEdge e => .inr e
  | .removeEdge e => .inr e

/-- Edges present in the base but not in the target. -/
def diffRemovedEdges (base target : Graph) : List Edge :=
  base.edges.filter (fun e => decide (e ∉ target.edges))

/-- Blocks whose id is present in the base but not in the target. -/
def diffRemovedBlocks (base target : Graph) : List Block :=
  base.blocks.filter (fun b => (target.findBlock b.id).isNone)

/-- Blocks whose id is present in the target but not in the base. -/
def diffAddedBlocks (base target : Graph) : List Block :=
  target.blocks.filter (fun b => (base.findBlock b.id).isNone)

/-- Edges present in the target but not in the base. -/
def diffAddedEdges (base target : Graph) : List Edge :=
  target.edges.filter (fun e => decide (e ∉ base.edges))

/-- Config updates for ids present in both graphs with differing config. -/
def diffUpdates (base target : Graph) : List DiffOp :=
  base.blocks.filterMap (fun b =>
    match target.findBlock b.id with
    | some tb =>
        if b.config = tb.config then none
        else some (.updateConfig b.id b.config tb.config)
    | none => none)

/-- Position updates for ids present in both graphs with differing
position. -/
def diffMoves (base target : Graph) : List DiffOp :=
  base.blocks.filterMap (fun b =>
    match target.findBlock b.id with
    | some tb =>
        if b.position = tb.position then none
        else some (.moveBlock b.id b.position tb.position)
    | none => none)

/-- Modelled from the spec, section 4.4: the diff of two graphs, emitted in
the canonical order removals, additions, updates, moves. -/
def diff (base target : Graph) : List DiffOp :=
  (diffRemovedEdges base target).map .removeEdge
    ++ (diffRemovedBlocks base target).map .removeBlock
    ++ (diffAddedBlocks base target).map .addBlock
    ++ (diffAddedEdges base target).map .addEdge
    ++ diffUpdates base target
    ++ diffMoves base target

/-- In a graph with no duplicate ids, looking up the id of a member block
finds that very block. -/
theorem find?_key_of_mem {l : List Block} (hn : (l.map (·.id)).Nodup)
    {b : Block} (hb : b ∈ l) :
    l.find? (fun c => c.id = b.id) = some b := by
  induction l with
  | nil => cases hb
  | cons a t ih =>
    simp only [List.map_cons, List.nodup_cons] at hn
    rcases List.mem_cons.mp hb with rfl | hbt
    · simp [List.find?_cons]
    · have hne : a.id ≠ b.id := by
        intro hEq
        exact hn.1 (hEq ▸ List.mem_map_of_mem (·.id) hbt)
      rw [List.find?_cons_of_neg _ (by simpa using hne)]
      exact ih hn.2 hbt

/-- Lookup of a member block by id in a duplicate-free graph. -/
theorem findBlock_of_mem {g : Graph} (hn : g.blockIds.Nodup) {b : Block}
    (hb : b ∈ g.blocks) : g.findBlock b.id = some b :=
  find?_key_of_mem hn hb

/-- C5: the diff of any graph against itself is the empty DiffSet. -/
theorem claim_C5 (g : Graph) (h : g.Valid) : diff g g = [] := by
  obtain ⟨hids, _, _⟩ := h
  have hre : diffRemovedEdges g g = [] := by
    apply List.filter_eq_nil_iff.mpr
    intro e he
    simp [he]
  have hrb : diffRemovedBlocks g g = [] := by
    apply List.filter_eq_nil_iff.mpr
    intro b hb
    simp [Graph.findBlock, find?_key_of_mem hids hb, Option.isNone]
  have hup : diffUpdates g g = [] := by
    apply List.filterMap_eq_nil_iff.mpr
    intro b hb
    simp [findBlock_of_mem hids hb]
  have hmv : diffMoves g g = [] := by
    apply List.filterMap_eq_nil_iff.mpr
    intro b hb
    simp [findBlock_of_mem hids hb]
  have hab : diffAddedBlocks g g = [] := by
    apply List.filter_eq_nil_iff.mpr
    intro b hb
    simp [Graph.findBlock, find?_key_of_mem hids hb, Option.isNone]
  have hae : diffAddedEdges g g = [] := by
    apply List.filter_eq_nil_iff.mpr
    intro e he
    simp [he]
  unfold diff
  rw [hre, hrb, hab, hae, hup, hmv]
  rfl

/-- C5 witness: a concrete valid two-block graph diffs against itself to
the empty DiffSet. -/
theorem claim_C5_witness :
    (Graph.mk "wf" 1
      [Block.mk "a" "agent" CVMap.nil none, Block.mk "b" "tool" CVMap.nil none]
      [Edge.mk "a" "out" "b" "in"]).Valid ∧
    diff
      (Graph.mk "wf" 1
        [Block.mk "a" "agent" CVMap.nil none, Block.mk "b" "tool" CVMap.nil none]
        [Edge.mk "a" "out" "b" "in"])
      (Graph.mk "wf" 1
        [Block.mk "a" "agent" CVMap.nil none, Block.mk "b" "tool" CVMap.nil none]
        [Edge.mk "a" "out" "b" "in"]) = [] :=
  ⟨by decide, claim_C5 _ (by decide)⟩

/-! ## Merge engine

Modelled from the spec, section 4.5: operations are applied in the diff
engine's canonical order; a conflict is detected when an update or move
operation's recorded old value does not match the current value
(optimistic-concurrency check), an addition targets an id or pair that
already exists, or a removal targets an id or pair that no longer exists.
The engine scans the whole DiffSet, collecting every conflicting operation,
and returns either a fully merged new graph or the complete conflict set —
never a partially merged graph (the base value itself is never mutated:
every application step builds a fresh graph value).
-/

/-- Why an operation conflicted with the current state of the graph. -/
inductive ConflictReason where
  | alreadyExists
  | notFound
  | valueMismatch
deriving DecidableEq

/-- A conflict: the offending operation together with the reason. -/
structure Conflict where
  op : DiffOp
  reason : ConflictReason
deriving DecidableEq

/-- Modelled from the spec, section 4.5: apply a single diff operation to a
graph, detecting the conflicts listed there. -/
def applyOp (g : Graph) : DiffOp → Except Conflict Graph
  | .addBlock b =>
    if (g.findBlock b.id).isSome then .error ⟨.addBlock b, .alreadyExists⟩
    else .ok { g with blocks := g.blocks ++ [b] }
  | .removeBlock b =>
    if (g.findBlock b.id).isSome then
      .ok { g with blocks := g.blocks.filter (fun c => decide (c.id ≠ b.id)) }
    else .error ⟨.removeBlock b, .notFound⟩
  | .updateConfig i oldC newC =>
    match g.findBlock i with
    | some b =>
      if b.config = oldC then
        .ok { g with blocks := g.blocks.map (fun c =>
          if c.id = i then { c with config := newC } else c) }
      else .error ⟨.updateConfig i oldC newC, .valueMismatch⟩
    | none => .error ⟨.updateConfig i oldC newC, .notFound⟩
  | .moveBlock i oldP newP =>
    match g.findBlock i with
    | some b =>
      if b.position = oldP then
        .ok { g with blocks := g.blocks.map (fun c =>
          if c.id = i then { c with position := newP } else c) }
      else .error ⟨.moveBlock i oldP newP, .valueMismatch⟩
    | none => .error ⟨.moveBlock i oldP newP, .notFound⟩
  | .addEdge e =>
    if e ∈ g.edges then .error ⟨.addEdge e, .alreadyExists⟩
    else .ok { g with edges := g.edges ++ [e] }
  | .removeEdge e =>
    if e ∈ g.edges then
      .ok { g with edges := g.edges.filter (fun f => decide (f ≠ e)) }
    else .error ⟨.removeEdge e, .notFound⟩

/-- Sequentially apply a DiffSet, collecting every conflicting operation;
a conflicting operation is skipped and the scan continues, so the final
conflict list describes all conflicts. -/
def mergeRun : Graph → List DiffOp → Graph × List Conflict
  | g, [] => (g, [])
  | g, op :: ops =>
    match applyOp g op with
    | .ok g₁ => mergeRun g₁ ops
    | .error c =>
      let r := mergeRun g ops
      (r.1, c :: r.2)

/-- Modelled from the spec, section 4.5: `merge(base, diffSet) ->
Result<Graph, ConflictSet>`; all-or-nothing — a graph is returned only when
no operation conflicted, otherwise the complete conflict set. -/
def merge (base : Graph) (ds : List DiffOp) : Except (List Conflict) Graph :=
  match mergeRun base ds with
  | (g, []) => .ok g
  | (_, c :: cs) => .error (c :: cs)

/-- An erroring application reports the very operation that was applied. -/
theorem applyOp_error_op {g : Graph} {op : DiffOp} {c : Conflict}
    (h : applyOp g op = .error c) : c.op = op := by
  cases op <;> simp only [applyOp] at h <;>
    (try split at h) <;> (try split at h) <;>
    simp_all <;> (cases h; rfl)

/-- Every conflict collected by a merge scan names an operation of the
DiffSet. -/
theorem mergeRun_conflict_ops {ds : List DiffOp} :
    ∀ {g : Graph}, ∀ c ∈ (mergeRun g ds).2, c.op ∈ ds := by
  induction ds with
  | nil => intro g c hc; simp [mergeRun] at hc
  | cons op ops ih =>
    intro g c hc
    simp only [mergeRun] at hc
    cases happ : applyOp g op with
    | ok g₁ =>
      rw [happ] at hc
      exact List.mem_cons_of_mem _ (ih c hc)
    | error c₀ =>
      rw [happ] at hc
      simp only [List.mem_cons] at hc
      rcases hc with rfl | hc
      · rw [applyOp_error_op happ]
        exact List.mem_cons_self _ _
      · exact List.mem_cons_of_mem _ (ih c hc)

/-- Decidable equality of merge results. -/
instance {e a : Type} [DecidableEq e] [DecidableEq a] : DecidableEq (Except e a) := fun x y =>
  match x, y with
  | .ok u, .ok v =>
    if h : u = v then isTrue (by rw [h])
    else isFalse (by intro hh; cases hh; exact h rfl)
  | .ok _, .error _ => isFalse (by intro hh; cases hh)
  | .error _, .ok _ => isFalse (by intro hh; cases hh)
  | .error u, .error v =>
    if h : u = v then isTrue (by rw [h])
    else isFalse (by intro hh; cases hh; exact h rfl)

/-- Base config of the conflict scenario block. -/
def cfgBase : CVMap := CVMap.cons "model" (CV.str "gpt-4") CVMap.nil

/-- Config of the same block in the first derived version. -/
def cfgV1 : CVMap := CVMap.cons "model" (CV.str "claude") CVMap.nil

/-- Config of the same block after an independent mutation of the base. -/
def cfgB2 : CVMap := CVMap.cons "model" (CV.str "gemini") CVMap.nil

/-- Conflict scenario: the original base graph. -/
def scBase : Graph := Graph.mk "wf" 1 [Block.mk "a" "agent" cfgBase none] []

/-- Conflict scenario: a first derived version, editing block "a". -/
def scV1 : Graph := Graph.mk "wf" 1 [Block.mk "a" "agent" cfgV1 none] []

/-- Conflict scenario: the base mutated independently, touching the same
block "a". -/
def scBase2 : Graph := Graph.mk "wf" 1 [Block.mk "a" "agent" cfgB2 none] []

/-- C3: whenever `merge` detects any conflict it returns the complete
conflict set — nonempty, and every reported conflict names an operation of
the DiffSet — and no (partially merged) graph is ever returned on the error
path; the base value is untouched, every application step building a fresh
graph.  In the spec's scenario, merging a diff of the base into an
independently mutated base reports a value-mismatch conflict whose path
names the touched block, never a silently wrong graph. -/
theorem claim_C3 (base : Graph) (ds : List DiffOp) :
    (merge base ds = .ok (mergeRun base ds).1 ∨
      merge base ds = .error (mergeRun base ds).2) ∧
    (∀ cs, merge base ds = .error cs → cs ≠ [] ∧ ∀ c ∈ cs, c.op ∈ ds) ∧
    merge scBase2 (diff scBase scV1) =
      .error [⟨.updateConfig "a" cfgBase cfgV1, .valueMismatch⟩] ∧
    (DiffOp.updateConfig "a" cfgBase cfgV1).path = .inl "a" := by
  refine ⟨?_, ?_, by decide, by decide⟩
  · rcases h : mergeRun base ds with ⟨g, cs0⟩
    cases cs0 with
    | nil => left; simp [merge, h]
    | cons c cs => right; simp [merge, h]
  · intro cs hcs
    rcases h : mergeRun base ds with ⟨g, cs0⟩
    cases cs0 with
    | nil => simp [merge, h] at hcs
    | cons c₀ cs₀ =>
      simp only [merge, h] at hcs
      cases hcs
      constructor
      · simp
      · intro c hc
        have := @mergeRun_conflict_ops ds base c
        rw [h] at this
        exact this hc

/-- C3 witness: applied to the concrete conflict scenario, discharging the
error-path hypothesis on a concrete merge run. -/
theorem claim_C3_witness :
    ([⟨.updateConfig "a" cfgBase cfgV1, .valueMismatch⟩] : List Conflict) ≠ [] ∧
      ∀ c ∈ ([⟨.updateConfig "a" cfgBase cfgV1, .valueMismatch⟩] : List Conflict),
        c.op ∈ diff scBase scV1 :=
  (claim_C3 scBase2 (diff scBase scV1)).2.1
    [⟨.updateConfig "a" cfgBase cfgV1, .valueMismatch⟩] (by decide)

/-! ### Characterizations of block lookup -/

theorem findBlock_eq_none_iff {g : Graph} {i : String} :
    g.findBlock i = none ↔ i ∉ g.blockIds := by
  unfold Graph.findBlock Graph.blockIds
  rw [List.find?_eq_none]
  simp

theorem findBlock_isSome_iff {g : Graph} {i : String} :
    (g.findBlock i).isSome ↔ i ∈ g.blockIds := by
  unfold Graph.findBlock Graph.blockIds
  rw [List.find?_isSome]
  simp

theorem findBlock_some {g : Graph} {i : String} {b : Block}
    (h : g.findBlock i = some b) : b ∈ g.blocks ∧ b.id = i := by
  refine ⟨List.mem_of_find?_eq_some h, ?_⟩
  have := List.find?_some h
  simpa using this

/-! ### Merge runs over the individual diff phases -/

/-- A conflict-free prefix run lets a subsequent run pick up from its
resulting graph. -/
theorem mergeRun_append_clean {xs ys : List DiffOp} :
    ∀ {g g₁ : Graph}, mergeRun g xs = (g₁, []) →
      mergeRun g (xs ++ ys) = mergeRun g₁ ys := by
  induction xs with
  | nil =>
    intro g g₁ h
    simp only [mergeRun] at h
    cases h
    rfl
  | cons op xs ih =>
    intro g g₁ h
    simp only [mergeRun, List.cons_append] at h ⊢
    cases happ : applyOp g op with
    | ok gm =>
      rw [happ] at h
      exact ih h
    | error c =>
      rw [happ] at h
      cases h

/-- Removing a duplicate-free list of present edges applies cleanly and
filters exactly those edges out. -/
theorem mergeRun_removeEdges {rs : List Edge} :
    ∀ {g : Graph}, rs.Nodup → (∀ e ∈ rs, e ∈ g.edges) →
    mergeRun g (rs.map .removeEdge) =
      ({ g with edges := g.edges.filter (fun e => decide (e ∉ rs)) }, []) := by
  induction rs with
  | nil =>
    intro g _ _
    simp [mergeRun]
  | cons r rs ih =>
    intro g hnd hsub
    have hr : r ∈ g.edges := hsub r (List.mem_cons_self _ _)
    rw [List.nodup_cons] at hnd
    simp only [List.map_cons, mergeRun, applyOp, if_pos hr]
    rw [ih hnd.2 (fun e he => by
      rw [List.mem_filter]
      refine ⟨hsub e (List.mem_cons_of_mem _ he), ?_⟩
      simp only [decide_eq_true_eq]
      intro hEq
      exact hnd.1 (hEq ▸ he))]
    have hpred : ∀ e : Edge,
        (decide (e ∉ rs) && decide (e ≠ r)) = decide (e ∉ r :: rs) := by
      intro e
      by_cases h1 : e = r <;> by_cases h2 : e ∈ rs <;> simp [h1, h2]
    simp only [List.filter_filter, hpred]

/-- Removing a list of present blocks with pairwise distinct ids applies
cleanly and filters exactly those ids out. -/
theorem mergeRun_removeBlocks {rs : List Block} :
    ∀ {g : Graph}, (rs.map (·.id)).Nodup → (∀ b ∈ rs, b ∈ g.blocks) →
    mergeRun g (rs.map .removeBlock) =
      ({ g with blocks :=
          g.blocks.filter (fun b => decide (b.id ∉ rs.map (·.id))) }, []) := by
  induction rs with
  | nil =>
    intro g _ _
    simp [mergeRun]
  | cons r rs ih =>
    intro g hnd hsub
    have hr : r ∈ g.blocks := hsub r (List.mem_cons_self _ _)
    have hrSome : (g.findBlock r.id).isSome := by
      rw [findBlock_isSome_iff]
      exact List.mem_map_of_mem _ hr
    rw [List.map_cons, List.nodup_cons] at hnd
    simp only [List.map_cons, mergeRun, applyOp, if_pos hrSome]
    rw [ih hnd.2 (fun b hb => by
      rw [List.mem_filter]
      refine ⟨hsub b (List.mem_cons_of_mem _ hb), ?_⟩
      simp only [decide_eq_true_eq]
      intro hEq
      exact hnd.1 (hEq ▸ List.mem_map_of_mem (·.id) hb))]
    have hpred : ∀ b : Block,
        (decide (b.id ∉ rs.map (·.id)) && decide (b.id ≠ r.id)) =
          decide (b.id ∉ r.id :: rs.map (·.id)) := by
      intro b
      by_cases h1 : b.id = r.id <;> by_cases h2 : b.id ∈ rs.map (·.id) <;>
        simp [h1, h2]
    simp only [List.filter_filter, hpred, List.map_cons]

/-- Adding blocks with fresh, pairwise distinct ids applies cleanly and
appends them. -/
theorem mergeRun_addBlocks {as : List Block} :
    ∀ {g : Graph}, (∀ b ∈ as, g.findBlock b.id = none) →
      (as.map (·.id)).Nodup →
    mergeRun g (as.map .addBlock) = ({ g with blocks := g.blocks ++ as }, []) := by
  induction as with
  | nil =>
    intro g _ _
    simp [mergeRun]
  | cons a as ih =>
    intro g hfresh hnd
    have ha : g.findBlock a.id = none := hfresh a (List.mem_cons_self _ _)
    have haNot : ¬ (g.findBlock a.id).isSome = true := by simp [ha]
    rw [List.map_cons, List.nodup_cons] at hnd
    simp only [List.map_cons, mergeRun, applyOp, if_neg haNot]
    rw [ih (fun b hb => by
      rw [findBlock_eq_none_iff]
      unfold Graph.blockIds
      simp only [List.map_append, List.mem_append]
      rintro (hmem | hmem)
      · exact (findBlock_eq_none_iff.mp (hfresh b (List.mem_cons_of_mem _ hb))) hmem
      · simp only [List.map_cons, List.map_nil, List.mem_singleton] at hmem
        exact hnd.1 (hmem ▸ List.mem_map_of_mem (·.id) hb)) hnd.2]
    simp

/-- Adding absent, pairwise distinct edges applies cleanly and appends
them. -/
theorem mergeRun_addEdges {as : List Edge} :
    ∀ {g : Graph}, (∀ e ∈ as, e ∉ g.edges) → as.Nodup →
    mergeRun g (as.map .addEdge) = ({ g with edges := g.edges ++ as }, []) := by
  induction as with
  | nil =>
    intro g _ _
    simp [mergeRun]
  | cons a as ih =>
    intro g hfresh hnd
    have ha : a ∉ g.edges := hfresh a (List.mem_cons_self _ _)
    rw [List.nodup_cons] at hnd
    simp only [List.map_cons, mergeRun, applyOp, if_neg ha]
    rw [ih (fun e he => by
      simp only [List.mem_append, List.mem_singleton]
      rintro (hmem | hmem)
      · exact hfresh e (List.mem_cons_of_mem _ he) hmem
      · exact hnd.1 (hmem ▸ he)) hnd.2]
    simp

/-- The pending config updates of a DiffSet as (id, old, new) triples. -/
def diffUpdateTriples (base target : Graph) : List (String × CVMap × CVMap) :=
  base.blocks.filterMap (fun b =>
    match target.findBlock b.id with
    | some tb =>
        if b.config = tb.config then none else some (b.id, b.config, tb.config)
    | none => none)

/-- The pending position updates of a DiffSet as (id, old, new) triples. -/
def diffMoveTriples (base target : Graph) :
    List (String × Option (Int × Int) × Option (Int × Int)) :=
  base.blocks.filterMap (fun b =>
    match target.findBlock b.id with
    | some tb =>
        if b.position = tb.position then none
        else some (b.id, b.position, tb.position)
    | none => none)

theorem diffUpdates_eq (base target : Graph) :
    diffUpdates base target =
      (diffUpdateTriples base target).map
        (fun u => .updateConfig u.1 u.2.1 u.2.2) := by
  unfold diffUpdates diffUpdateTriples
  rw [List.map_filterMap]
  congr 1
  funext b
  cases target.findBlock b.id with
  | none => rfl
  | some tb =>
    by_cases h : b.config = tb.config <;> simp [h]

theorem diffMoves_eq (base target : Graph) :
    diffMoves base target =
      (diffMoveTriples base target).map
        (fun u => .moveBlock u.1 u.2.1 u.2.2) := by
  unfold diffMoves diffMoveTriples
  rw [List.map_filterMap]
  congr 1
  funext b
  cases target.findBlock b.id with
  | none => rfl
  | some tb =>
    by_cases h : b.position = tb.position <;> simp [h]

/-- Apply to a block the config update (if any) that a triple list holds
for its id. -/
def applyConfigUpdates (us : List (String × CVMap × CVMap)) (b : Block) : Block :=
  match us.find? (fun u => u.1 = b.id) with
  | some u => { b with config := u.2.2 }
  | none => b

/-- Apply to a block the position update (if any) that a triple list holds
for its id. -/
def applyPositionUpdates
    (us : List (String × Option (Int × Int) × Option (Int × Int)))
    (b : Block) : Block :=
  match us.find? (fun u => u.1 = b.id) with
  | some u => { b with position := u.2.2 }
  | none => b

theorem applyConfigUpdates_id (us : List (String × CVMap × CVMap)) (b : Block) :
    (applyConfigUpdates us b).id = b.id := by
  unfold applyConfigUpdates
  cases us.find? (fun u => u.1 = b.id) <;> rfl

theorem applyConfigUpdates_position (us : List (String × CVMap × CVMap))
    (b : Block) : (applyConfigUpdates us b).position = b.position := by
  unfold applyConfigUpdates
  cases us.find? (fun u => u.1 = b.id) <;> rfl

theorem applyConfigUpdates_typeTag (us : List (String × CVMap × CVMap))
    (b : Block) : (applyConfigUpdates us b).typeTag = b.typeTag := by
  unfold applyConfigUpdates
  cases us.find? (fun u => u.1 = b.id) <;> rfl

theorem applyPositionUpdates_id
    (us : List (String × Option (Int × Int) × Option (Int × Int)))
    (b : Block) : (applyPositionUpdates us b).id = b.id := by
  unfold applyPositionUpdates
  cases us.find? (fun u => u.1 = b.id) <;> rfl

theorem applyPositionUpdates_config
    (us : List (String × Option (Int × Int) × Option (Int × Int)))
    (b : Block) : (applyPositionUpdates us b).config = b.config := by
  unfold applyPositionUpdates
  cases us.find? (fun u => u.1 = b.id) <;> rfl

theorem applyPositionUpdates_typeTag
    (us : List (String × Option (Int × Int) × Option (Int × Int)))
    (b : Block) : (applyPositionUpdates us b).typeTag = b.typeTag := by
  unfold applyPositionUpdates
  cases us.find? (fun u => u.1 = b.id) <;> rfl

/-- Lookup by id commutes with mapping an id-preserving function over the
block list. -/
theorem find?_map_idpres {f : Block → Block} (hf : ∀ b, (f b).id = b.id)
    (l : List Block) (i : String) :
    (l.map f).find? (fun c => c.id = i) =
      (l.find? (fun c => c.id = i)).map f := by
  induction l with
  | nil => rfl
  | cons a t ih =>
    by_cases h : a.id = i
    · rw [List.map_cons]
      rw [List.find?_cons_of_pos _ (by simpa [hf a] using h),
        List.find?_cons_of_pos _ (by simpa using h)]
      rfl
    · rw [List.map_cons]
      rw [List.find?_cons_of_neg _ (by simpa [hf a] using h),
        List.find?_cons_of_neg _ (by simpa using h)]
      exact ih

/-- Keys of a key-tagged filterMap form a sublist of the source keys. -/
theorem map_key_filterMap_sublist {β : Type} (f : Block → Option β)
    (pk : β → String) (hf : ∀ a u, f a = some u → pk u = a.id)
    (l : List Block) :
    ((l.filterMap f).map pk).Sublist (l.map (·.id)) := by
  induction l with
  | nil => simp
  | cons a t ih =>
    rw [List.filterMap_cons]
    cases hfa : f a with
    | none =>
      rw [List.map_cons]
      exact ih.cons _
    | some u =>
      rw [List.map_cons, List.map_cons, hf a u hfa]
      exact ih.cons₂ _

/-- In a duplicate-free block list, looking up a member's id in a
key-tagged filterMap returns exactly that member's entry. -/
theorem find?_filterMap_key {β : Type} {f : Block → Option β}
    {pk : β → String} (hf : ∀ a u, f a = some u → pk u = a.id)
    {l : List Block} (hn : (l.map (·.id)).Nodup) {b : Block} (hb : b ∈ l) :
    (l.filterMap f).find? (fun u => pk u = b.id) = f b := by
  induction l with
  | nil => cases hb
  | cons a t ih =>
    rw [List.map_cons, List.nodup_cons] at hn
    rw [List.filterMap_cons]
    rcases List.mem_cons.mp hb with rfl | hbt
    · cases hfa : f b with
      | none =>
        rw [List.find?_eq_none]
        intro u hu
        have : pk u ∈ t.map (·.id) := by
          have hs := map_key_filterMap_sublist f pk hf t
          exact hs.mem (List.mem_map_of_mem pk hu)
        simp only [decide_eq_true_eq]
        intro hEq
        exact hn.1 (hEq ▸ this)
      | some u =>
        rw [List.find?_cons_of_pos _ (by simp [hf b u hfa])]
    · have hne : a.id ≠ b.id := by
        intro hEq
        exact hn.1 (hEq ▸ List.mem_map_of_mem (·.id) hbt)
      cases hfa : f a with
      | none => exact ih hn.2 hbt
      | some u =>
        rw [List.find?_cons_of_neg _ (by simp [hf a u hfa, hne])]
        exact ih hn.2 hbt

/-- Applying config updates whose ids are pairwise distinct and whose old
values match the current graph succeeds and maps the update over the block
list. -/
theorem mergeRun_updates {us : List (String × CVMap × CVMap)} :
    ∀ {g : Graph}, (us.map (·.1)).Nodup →
      (∀ u ∈ us, ∃ b, g.findBlock u.1 = some b ∧ b.config = u.2.1) →
    mergeRun g (us.map (fun u => .updateConfig u.1 u.2.1 u.2.2)) =
      ({ g with blocks := g.blocks.map (applyConfigUpdates us) }, []) := by
  induction us with
  | nil =>
    intro g _ _
    have hmap : g.blocks.map (applyConfigUpdates []) = g.blocks := by
      have h1 : ∀ b ∈ g.blocks, applyConfigUpdates [] b = b := fun b _ => rfl
      rw [List.map_congr_left h1, List.map_id']
    rw [List.map_nil, hmap]
    rfl
  | cons u us ih =>
    intro g hnd hold
    obtain ⟨b, hfind, hcfg⟩ := hold u (List.mem_cons_self _ _)
    rw [List.map_cons, List.nodup_cons] at hnd
    simp only [List.map_cons, mergeRun, applyOp, hfind, if_pos hcfg]
    have hsingle : ∀ c : Block,
        (if c.id = u.1 then { c with config := u.2.2 } else c).id = c.id := by
      intro c
      by_cases h : c.id = u.1 <;> simp [h]
    rw [ih hnd.2 (fun v hv => by
      obtain ⟨bv, hbv, hbvc⟩ := hold v (List.mem_cons_of_mem _ hv)
      have hneq : v.1 ≠ u.1 := by
        intro hEq
        exact hnd.1 (hEq ▸ List.mem_map_of_mem (·.1) hv)
      refine ⟨if bv.id = u.1 then { bv with config := u.2.2 } else bv, ?_, ?_⟩
      · show Graph.findBlock _ v.1 = _
        unfold Graph.findBlock
        rw [find?_map_idpres hsingle]
        unfold Graph.findBlock at hbv
        rw [hbv]
        rfl
      · have hid : bv.id = v.1 := (findBlock_some hbv).2
        rw [if_neg (by rw [hid]; exact hneq)]
        exact hbvc)]
    congr 2
    rw [List.map_map]
    apply List.map_congr_left
    intro c _
    show applyConfigUpdates us (if c.id = u.1 then { c with config := u.2.2 } else c) =
      applyConfigUpdates (u :: us) c
    by_cases h : c.id = u.1
    · rw [if_pos h]
      unfold applyConfigUpdates
      rw [List.find?_cons_of_pos _ (by simp [h])]
      have : us.find? (fun v => v.1 = c.id) = none := by
        rw [List.find?_eq_none]
        intro v hv
        simp only [decide_eq_true_eq]
        intro hEq
        exact hnd.1 ((hEq.trans h) ▸ List.mem_map_of_mem (·.1) hv)
      simp only [this]
    · rw [if_neg h]
      unfold applyConfigUpdates
      rw [List.find?_cons_of_neg _ (by simp; intro hEq; exact h hEq.symm)]

/-- Applying position updates whose ids are pairwise distinct and whose old
values match the current graph succeeds and maps the update over the block
list. -/
theorem mergeRun_moves
    {us : List (String × Option (Int × Int) × Option (Int × Int))} :
    ∀ {g : Graph}, (us.map (·.1)).Nodup →
      (∀ u ∈ us, ∃ b, g.findBlock u.1 = some b ∧ b.position = u.2.1) →
    mergeRun g (us.map (fun u => .moveBlock u.1 u.2.1 u.2.2)) =
      ({ g with blocks := g.blocks.map (applyPositionUpdates us) }, []) := by
  induction us with
  | nil =>
    intro g _ _
    have hmap : g.blocks.map (applyPositionUpdates []) = g.blocks := by
      have h1 : ∀ b ∈ g.blocks, applyPositionUpdates [] b = b := fun b _ => rfl
      rw [List.map_congr_left h1, List.map_id']
    rw [List.map_nil, hmap]
    rfl
  | cons u us ih =>
    intro g hnd hold
    obtain ⟨b, hfind, hpos⟩ := hold u (List.mem_cons_self _ _)
    rw [List.map_cons, List.nodup_cons] at hnd
    simp only [List.map_cons, mergeRun, applyOp, hfind, if_pos hpos]
    have hsingle : ∀ c : Block,
        (if c.id = u.1 then { c with position := u.2.2 } else c).id = c.id := by
      intro c
      by_cases h : c.id = u.1 <;> simp [h]
    rw [ih hnd.2 (fun v hv => by
      obtain ⟨bv, hbv, hbvc⟩ := hold v (List.mem_cons_of_mem _ hv)
      have hneq : v.1 ≠ u.1 := by
        intro hEq
        exact hnd.1 (hEq ▸ List.mem_map_of_mem (·.1) hv)
      refine ⟨if bv.id = u.1 then { bv with position := u.2.2 } else bv, ?_, ?_⟩
      · show Graph.findBlock _ v.1 = _
        unfold Graph.findBlock
        rw [find?_map_idpres hsingle]
        unfold Graph.findBlock at hbv
        rw [hbv]
        rfl
      · have hid : bv.id = v.1 := (findBlock_some hbv).2
        rw [if_neg (by rw [hid]; exact hneq)]
        exact hbvc)]
    congr 2
    rw [List.map_map]
    apply List.map_congr_left
    intro c _
    show applyPositionUpdates us
        (if c.id = u.1 then { c with position := u.2.2 } else c) =
      applyPositionUpdates (u :: us) c
    by_cases h : c.id = u.1
    · rw [if_pos h]
      unfold applyPositionUpdates
      rw [List.find?_cons_of_pos _ (by simp [h])]
      have : us.find? (fun v => v.1 = c.id) = none := by
        rw [List.find?_eq_none]
        intro v hv
        simp only [decide_eq_true_eq]
        intro hEq
        exact hnd.1 ((hEq.trans h) ▸ List.mem_map_of_mem (·.1) hv)
      simp only [this]
    · rw [if_neg h]
      unfold applyPositionUpdates
      rw [List.find?_cons_of_neg _ (by simp; intro hEq; exact h hEq.symm)]

/-- The pending config update (if any) that a diff records for one base
block. -/
def updEntry (target : Graph) (b : Block) : Option (String × CVMap × CVMap) :=
  match target.findBlock b.id with
  | some tb =>
      if b.config = tb.config then none else some (b.id, b.config, tb.config)
  | none => none

/-- The pending position update (if any) that a diff records for one base
block. -/
def movEntry (target : Graph) (b : Block) :
    Option (String × Option (Int × Int) × Option (Int × Int)) :=
  match target.findBlock b.id with
  | some tb =>
      if b.position = tb.position then none
      else some (b.id, b.position, tb.position)
  | none => none

theorem diffUpdateTriples_eq (base target : Graph) :
    diffUpdateTriples base target = base.blocks.filterMap (updEntry target) := rfl

theorem diffMoveTriples_eq (base target : Graph) :
    diffMoveTriples base target = base.blocks.filterMap (movEntry target) := rfl

theorem updEntry_key (target : Graph) :
    ∀ (a : Block) u, updEntry target a = some u → u.1 = a.id := by
  intro a u h
  unfold updEntry at h
  rcases hta : target.findBlock a.id with _ | tb <;> rw [hta] at h
  · simp at h
  · by_cases hc : a.config = tb.config
    · simp [if_pos hc] at h
    · simp only [if_neg hc] at h
      cases h
      rfl

theorem movEntry_key (target : Graph) :
    ∀ (a : Block) u, movEntry target a = some u → u.1 = a.id := by
  intro a u h
  unfold movEntry at h
  rcases hta : target.findBlock a.id with _ | tb <;> rw [hta] at h
  · simp at h
  · by_cases hc : a.position = tb.position
    · simp [if_pos hc] at h
    · simp only [if_neg hc] at h
      cases h
      rfl

theorem updEntry_some {target : Graph} {b : Block}
    {u : String × CVMap × CVMap} (h : updEntry target b = some u) :
    ∃ tb, target.findBlock b.id = some tb ∧ ¬ b.config = tb.config ∧
      u = (b.id, b.config, tb.config) := by
  unfold updEntry at h
  rcases hta : target.findBlock b.id with _ | tb <;> rw [hta] at h
  · simp at h
  · by_cases hc : b.config = tb.config
    · simp [if_pos hc] at h
    · simp only [if_neg hc] at h
      cases h
      exact ⟨tb, rfl, hc, rfl⟩

theorem movEntry_some {target : Graph} {b : Block}
    {u : String × Option (Int × Int) × Option (Int × Int)}
    (h : movEntry target b = some u) :
    ∃ tb, target.findBlock b.id = some tb ∧ ¬ b.position = tb.position ∧
      u = (b.id, b.position, tb.position) := by
  unfold movEntry at h
  rcases hta : target.findBlock b.id with _ | tb <;> rw [hta] at h
  · simp at h
  · by_cases hc : b.position = tb.position
    · simp [if_pos hc] at h
    · simp only [if_neg hc] at h
      cases h
      exact ⟨tb, rfl, hc, rfl⟩

/-- On a base block whose id the target keeps, the diff's config updates
set exactly the target's config. -/
theorem applyConfigUpdates_diff {base target : Graph}
    (hBids : base.blockIds.Nodup) {b : Block} (hb : b ∈ base.blocks)
    {tb : Block} (htb : target.findBlock b.id = some tb) :
    applyConfigUpdates (diffUpdateTriples base target) b =
      ⟨b.id, b.typeTag, tb.config, b.position⟩ := by
  unfold applyConfigUpdates
  rw [diffUpdateTriples_eq,
    find?_filterMap_key (updEntry_key target) hBids hb]
  unfold updEntry
  rw [htb]
  by_cases h : b.config = tb.config
  · simp only [if_pos h]
    cases b
    simp_all
  · simp [if_neg h]

/-- On a block whose id is absent from the base, the diff's config updates
change nothing. -/
theorem applyConfigUpdates_notin {base target : Graph} {c : Block}
    (hc : c.id ∉ base.blockIds) :
    applyConfigUpdates (diffUpdateTriples base target) c = c := by
  unfold applyConfigUpdates
  have hnone : (diffUpdateTriples base target).find? (fun u => u.1 = c.id) = none := by
    rw [List.find?_eq_none]
    intro u hu
    have hkey : u.1 ∈ base.blockIds := by
      have hs := map_key_filterMap_sublist (updEntry target) (·.1)
        (updEntry_key target) base.blocks
      rw [← diffUpdateTriples_eq] at hs
      exact hs.mem (List.mem_map_of_mem (·.1) hu)
    simp only [decide_eq_true_eq]
    intro hEq
    exact hc (hEq ▸ hkey)
  rw [hnone]

/-- On a block standing for a base block whose id the target keeps, the
diff's position updates set exactly the target's position. -/
theorem applyPositionUpdates_diff {base target : Graph}
    (hBids : base.blockIds.Nodup) {b : Block} (hb : b ∈ base.blocks)
    {tb : Block} (htb : target.findBlock b.id = some tb)
    {c : Block} (hcid : c.id = b.id) (hcp : c.position = b.position) :
    applyPositionUpdates (diffMoveTriples base target) c =
      ⟨c.id, c.typeTag, c.config, tb.position⟩ := by
  unfold applyPositionUpdates
  simp only [hcid]
  rw [diffMoveTriples_eq,
    find?_filterMap_key (movEntry_key target) hBids hb]
  unfold movEntry
  rw [htb]
  by_cases h : b.position = tb.position
  · simp only [if_pos h]
    cases c
    simp_all
  · simp [if_neg h]

/-- On a block whose id is absent from the base, the diff's position
updates change nothing. -/
theorem applyPositionUpdates_notin {base target : Graph} {c : Block}
    (hc : c.id ∉ base.blockIds) :
    applyPositionUpdates (diffMoveTriples base target) c = c := by
  unfold applyPositionUpdates
  have hnone : (diffMoveTriples base target).find? (fun u => u.1 = c.id) = none := by
    rw [List.find?_eq_none]
    intro u hu
    have hkey : u.1 ∈ base.blockIds := by
      have hs := map_key_filterMap_sublist (movEntry target) (·.1)
        (movEntry_key target) base.blocks
      rw [← diffMoveTriples_eq] at hs
      exact hs.mem (List.mem_map_of_mem (·.1) hu)
    simp only [decide_eq_true_eq]
    intro hEq
    exact hc (hEq ▸ hkey)
  rw [hnone]


/-- Merging the diff of a base into that base reconstructs the target, for
graphs that agree on metadata and on the type tags of id-matched blocks. -/
theorem claim_C2_amended (base target : Graph)
    (hB : base.Valid) (hT : target.Valid)
    (hname : base.name = target.name) (hver : base.version = target.version)
    (htypes : ∀ b ∈ base.blocks, ∀ tb ∈ target.blocks,
      b.id = tb.id → b.typeTag = tb.typeTag) :
    ∃ m, merge base (diff base target) = .ok m ∧ m.Equiv target := by
  obtain ⟨hBids, hBed, hBcl⟩ := hB
  obtain ⟨hTids, hTed, hTcl⟩ := hT
  have hBids2 : (base.blocks.map (·.id)).Nodup := hBids
  have hTids2 : (target.blocks.map (·.id)).Nodup := hTids
  set E := base.edges.filter (fun e => decide (e ∈ target.edges)) with hEdef
  set K := base.blocks.filter (fun b => (target.findBlock b.id).isSome) with hKdef
  set aB := diffAddedBlocks base target with haBdef
  set aE := diffAddedEdges base target with haEdef
  set U := diffUpdateTriples base target with hUdef
  set M := diffMoveTriples base target with hMdef
  -- phase 1: edge removals
  have hEeq : base.edges.filter
      (fun e => decide (e ∉ diffRemovedEdges base target)) = E := by
    rw [hEdef]
    apply List.filter_congr
    intro e he
    rw [decide_eq_decide]
    simp [diffRemovedEdges, he]
  have h1 : mergeRun base ((diffRemovedEdges base target).map .removeEdge) =
      (Graph.mk base.name base.version base.blocks E, []) := by
    rw [← hEeq]
    exact mergeRun_removeEdges (hBed.filter _)
      (fun e he => (List.mem_filter.mp he).1)
  -- phase 2: block removals
  have hKeq : base.blocks.filter
      (fun b => decide (b.id ∉ (diffRemovedBlocks base target).map (·.id))) = K := by
    rw [hKdef]
    apply List.filter_congr
    intro b hb
    rcases hfb : target.findBlock b.id with _ | tb
    · have hbrB : b ∈ diffRemovedBlocks base target :=
        List.mem_filter.mpr ⟨hb, by simp [hfb]⟩
      simp only [hfb, Option.isSome_none, decide_eq_false_iff_not, not_not]
      exact List.mem_map_of_mem (·.id) hbrB
    · simp only [hfb, Option.isSome_some, decide_eq_true_eq]
      intro hmem
      obtain ⟨c, hc, hcid⟩ := List.mem_map.mp hmem
      have hcnone := (List.mem_filter.mp hc).2
      rw [hcid] at hcnone
      rw [hfb] at hcnone
      simp at hcnone
  have h2 : mergeRun (Graph.mk base.name base.version base.blocks E)
      ((diffRemovedBlocks base target).map .removeBlock) =
      (Graph.mk base.name base.version K E, []) := by
    rw [← hKeq]
    exact mergeRun_removeBlocks
      (((List.filter_sublist _).map (fun b : Block => b.id)).nodup hBids2)
      (fun b hb => (List.mem_filter.mp hb).1)
  -- membership facts about K and aB
  have hKsub : ∀ {b : Block}, b ∈ K → b ∈ base.blocks := by
    intro b hb
    rw [hKdef] at hb
    exact (List.mem_filter.mp hb).1
  have hKid : ∀ {i : String}, i ∈ K.map (·.id) → i ∈ base.blockIds := by
    intro i hi
    obtain ⟨c, hc, rfl⟩ := List.mem_map.mp hi
    exact List.mem_map_of_mem (·.id) (hKsub hc)
  have haBid : ∀ {b : Block}, b ∈ aB → b.id ∉ base.blockIds := by
    intro b hb
    rw [haBdef] at hb
    have := (List.mem_filter.mp hb).2
    rw [Option.isNone_iff_eq_none] at this
    exact findBlock_eq_none_iff.mp this
  have haBtgt : ∀ {b : Block}, b ∈ aB → b ∈ target.blocks := by
    intro b hb
    rw [haBdef] at hb
    exact (List.mem_filter.mp hb).1
  have hn4 : ((K ++ aB).map (·.id)).Nodup := by
    rw [List.map_append]
    refine List.Nodup.append ?_ ?_ ?_
    · exact ((List.filter_sublist _).map (fun b : Block => b.id)).nodup hBids2
    · exact ((List.filter_sublist _).map (fun b : Block => b.id)).nodup hTids2
    · intro i hiK hiaB
      obtain ⟨c, hc, rfl⟩ := List.mem_map.mp hiaB
      exact haBid hc (hKid hiK)
  -- phase 3: block additions
  have h3 : mergeRun (Graph.mk base.name base.version K E)
      (aB.map .addBlock) =
      (Graph.mk base.name base.version (K ++ aB) E, []) := by
    exact mergeRun_addBlocks
      (fun b hb => by
        rw [findBlock_eq_none_iff]
        intro hmem
        exact haBid hb (hKid hmem))
      (((List.filter_sublist _).map (fun b : Block => b.id)).nodup hTids2)
  -- phase 4: edge additions
  have haEbase : ∀ {e : Edge}, e ∈ aE → e ∉ base.edges := by
    intro e he
    rw [haEdef] at he
    have := (List.mem_filter.mp he).2
    simpa using this
  have haEtgt : ∀ {e : Edge}, e ∈ aE → e ∈ target.edges := by
    intro e he
    rw [haEdef] at he
    exact (List.mem_filter.mp he).1
  have hEbase : ∀ {e : Edge}, e ∈ E → e ∈ base.edges := by
    intro e he
    rw [hEdef] at he
    exact (List.mem_filter.mp he).1
  have hEtgt : ∀ {e : Edge}, e ∈ E → e ∈ target.edges := by
    intro e he
    rw [hEdef] at he
    have := (List.mem_filter.mp he).2
    simpa using this
  have h4 : mergeRun (Graph.mk base.name base.version (K ++ aB) E)
      (aE.map .addEdge) =
      (Graph.mk base.name base.version (K ++ aB) (E ++ aE), []) := by
    exact mergeRun_addEdges
      (fun e he hmem => haEbase he (hEbase hmem))
      (hTed.filter _)
  -- phase 5: config updates
  have hUkeys : (U.map (·.1)).Nodup := by
    rw [hUdef, diffUpdateTriples_eq]
    exact (map_key_filterMap_sublist (updEntry target) (·.1)
      (updEntry_key target) base.blocks).nodup hBids2
  have hfindK : ∀ {b : Block}, b ∈ base.blocks →
      (target.findBlock b.id).isSome →
      (K ++ aB).find? (fun c => c.id = b.id) = some b := by
    intro b hb hsome
    have hbK : b ∈ K := by
      rw [hKdef]
      exact List.mem_filter.mpr ⟨hb, hsome⟩
    exact find?_key_of_mem hn4 (List.mem_append_left _ hbK)
  have h5 : mergeRun (Graph.mk base.name base.version (K ++ aB) (E ++ aE))
      (U.map (fun u => .updateConfig u.1 u.2.1 u.2.2)) =
      (Graph.mk base.name base.version
        ((K ++ aB).map (applyConfigUpdates U)) (E ++ aE), []) := by
    exact mergeRun_updates hUkeys
      (fun u hu => by
        rw [hUdef, diffUpdateTriples_eq] at hu
        obtain ⟨b, hbmem, hfb⟩ := List.mem_filterMap.mp hu
        obtain ⟨tb, htb, _, rfl⟩ := updEntry_some hfb
        exact ⟨b, hfindK hbmem (by simp [htb]), rfl⟩)
  -- phase 6: position updates
  have hMkeys : (M.map (·.1)).Nodup := by
    rw [hMdef, diffMoveTriples_eq]
    exact (map_key_filterMap_sublist (movEntry target) (·.1)
      (movEntry_key target) base.blocks).nodup hBids2
  have h6 : mergeRun (Graph.mk base.name base.version
        ((K ++ aB).map (applyConfigUpdates U)) (E ++ aE))
      (M.map (fun u => .moveBlock u.1 u.2.1 u.2.2)) =
      (Graph.mk base.name base.version
        (((K ++ aB).map (applyConfigUpdates U)).map (applyPositionUpdates M))
        (E ++ aE), []) := by
    exact mergeRun_moves hMkeys
      (fun u hu => by
        rw [hMdef, diffMoveTriples_eq] at hu
        obtain ⟨b, hbmem, hfb⟩ := List.mem_filterMap.mp hu
        obtain ⟨tb, htb, _, rfl⟩ := movEntry_some hfb
        refine ⟨applyConfigUpdates U b, ?_, ?_⟩
        · show ((K ++ aB).map (applyConfigUpdates U)).find?
            (fun c => c.id = b.id) = some (applyConfigUpdates U b)
          rw [find?_map_idpres (applyConfigUpdates_id U),
            hfindK hbmem (by simp [htb])]
          rfl
        · rw [applyConfigUpdates_position])
  -- the complete conflict-free run
  have hrun : mergeRun base (diff base target) =
      (Graph.mk base.name base.version
        (((K ++ aB).map (applyConfigUpdates U)).map (applyPositionUpdates M))
        (E ++ aE), []) := by
    unfold diff
    rw [diffUpdates_eq, diffMoves_eq, ← haBdef, ← haEdef, ← hUdef, ← hMdef]
    simp only [List.append_assoc]
    rw [mergeRun_append_clean h1, mergeRun_append_clean h2,
      mergeRun_append_clean h3, mergeRun_append_clean h4,
      mergeRun_append_clean h5]
    exact h6
  refine ⟨_, by unfold merge; rw [hrun], ?_, ?_, ?_, ?_⟩
  · exact hname
  · exact hver
  · -- blocks are a permutation of the target's blocks
    show (((K ++ aB).map (applyConfigUpdates U)).map
      (applyPositionUpdates M)).Perm target.blocks
    have hids : (((K ++ aB).map (applyConfigUpdates U)).map
        (applyPositionUpdates M)).map (·.id) = (K ++ aB).map (·.id) := by
      rw [List.map_map, List.map_map]
      apply List.map_congr_left
      intro c _
      show (applyPositionUpdates M (applyConfigUpdates U c)).id = c.id
      rw [applyPositionUpdates_id, applyConfigUpdates_id]
    rw [List.perm_ext_iff_of_nodup
      (List.Nodup.of_map _ (hids ▸ hn4)) (List.Nodup.of_map _ hTids)]
    intro x
    constructor
    · intro hx
      obtain ⟨y₁, hy₁, rfl⟩ := List.mem_map.mp hx
      obtain ⟨y₀, hy₀, rfl⟩ := List.mem_map.mp hy₁
      rcases List.mem_append.mp hy₀ with hyK | hyA
      · have hybase := hKsub hyK
        have hsome : (target.findBlock y₀.id).isSome := by
          rw [hKdef] at hyK
          exact (List.mem_filter.mp hyK).2
        obtain ⟨tb, htb⟩ := Option.isSome_iff_exists.mp hsome
        obtain ⟨htbmem, htbid⟩ := findBlock_some htb
        have hC := applyConfigUpdates_diff hBids hybase htb
        rw [hC]
        have hP := @applyPositionUpdates_diff base target hBids y₀ hybase tb htb
          ⟨y₀.id, y₀.typeTag, tb.config, y₀.position⟩ rfl rfl
        rw [hMdef]
        rw [hP]
        have : tb = ⟨y₀.id, y₀.typeTag, tb.config, tb.position⟩ := by
          have hty : y₀.typeTag = tb.typeTag :=
            htypes y₀ hybase tb htbmem htbid.symm
          cases tb
          simp_all
        rw [← this]
        exact htbmem
      · have hid := haBid hyA
        rw [hUdef, hMdef, applyConfigUpdates_notin hid,
          applyPositionUpdates_notin hid]
        exact haBtgt hyA
    · intro hx
      rcases hfb : base.findBlock x.id with _ | b
      · have hxA : x ∈ aB := by
          rw [haBdef]
          exact List.mem_filter.mpr ⟨hx, by simp [hfb]⟩
        have hid : x.id ∉ base.blockIds := findBlock_eq_none_iff.mp hfb
        have hmem := List.mem_map_of_mem (applyPositionUpdates M)
          (List.mem_map_of_mem (applyConfigUpdates U)
            (List.mem_append_right K hxA))
        rw [hUdef, hMdef] at hmem
        rw [applyConfigUpdates_notin hid, applyPositionUpdates_notin hid] at hmem
        rw [← hUdef, ← hMdef] at hmem
        exact hmem
      · obtain ⟨hbmem, hbid⟩ := findBlock_some hfb
        have htbfind : target.findBlock b.id = some x := by
          rw [hbid]
          exact findBlock_of_mem hTids hx
        have hbK : b ∈ K := by
          rw [hKdef]
          exact List.mem_filter.mpr ⟨hbmem, by simp [htbfind]⟩
        have hmem := List.mem_map_of_mem (applyPositionUpdates M)
          (List.mem_map_of_mem (applyConfigUpdates U)
            (List.mem_append_left aB hbK))
        have hC := applyConfigUpdates_diff hBids hbmem htbfind
        rw [hUdef] at hmem
        rw [hC] at hmem
        have hP := @applyPositionUpdates_diff base target hBids b hbmem x htbfind
          ⟨b.id, b.typeTag, x.config, b.position⟩ rfl rfl
        rw [hMdef] at hmem
        rw [hP] at hmem
        have hxeq : x = ⟨b.id, b.typeTag, x.config, x.position⟩ := by
          have hty : b.typeTag = x.typeTag :=
            htypes b hbmem x hx (findBlock_some htbfind).2.symm
          have hxid : x.id = b.id := (findBlock_some htbfind).2
          cases x
          simp_all
        rw [← hxeq] at hmem
        exact hmem
  · -- edges are a permutation of the target's edges
    show (E ++ aE).Perm target.edges
    have hEnd : E.Nodup := by rw [hEdef]; exact hBed.filter _
    have haEnd : aE.Nodup := by rw [haEdef]; exact hTed.filter _
    rw [List.perm_ext_iff_of_nodup
      (hEnd.append haEnd (fun e heE heA => haEbase heA (hEbase heE))) hTed]
    intro e
    constructor
    · intro he
      rcases List.mem_append.mp he with h | h
      · exact hEtgt h
      · exact haEtgt h
    · intro he
      by_cases hbe : e ∈ base.edges
      · refine List.mem_append_left _ ?_
        rw [hEdef]
        exact List.mem_filter.mpr ⟨hbe, by simpa using he⟩
      · refine List.mem_append_right _ ?_
        rw [haEdef]
        exact List.mem_filter.mpr ⟨he, by simpa using hbe⟩

/-- A base graph whose metadata differs from the target's. -/
def cxBase : Graph := Graph.mk "wf-a" 1 [] []

/-- A target graph that differs from `cxBase` only in its name. -/
def cxTarget : Graph := Graph.mk "wf-b" 1 [] []

/-- C2 as stated fails: the diff operation vocabulary carries no operation
for graph metadata (nor for a block's type tag), so merging
`diff(base, target)` into `base` cannot reproduce a target whose name
differs — the merge succeeds but returns the unchanged base. -/
theorem claim_C2_counterexample :
    ¬ ∃ m, merge cxBase (diff cxBase cxTarget) = .ok m ∧ m.Equiv cxTarget := by
  rintro ⟨m, hm, heq⟩
  have hcomp : merge cxBase (diff cxBase cxTarget) = .ok cxBase := by decide
  rw [hcomp] at hm
  cases hm
  exact absurd heq.1 (by decide)

/-- Concrete base for the diff/merge inverse witness: blocks a, b and the
edge a→b. -/
def c2Base : Graph :=
  Graph.mk "wf" 1
    [Block.mk "a" "agent" cfgBase (some (0, 0)),
     Block.mk "b" "tool" CVMap.nil none]
    [Edge.mk "a" "out" "b" "in"]

/-- Concrete target for the diff/merge inverse witness: block b removed,
block c added, block a reconfigured and moved, edge a→b replaced by
a→c. -/
def c2Target : Graph :=
  Graph.mk "wf" 1
    [Block.mk "c" "api" CVMap.nil (some (5, 5)),
     Block.mk "a" "agent" cfgV1 (some (3, 4))]
    [Edge.mk "a" "out" "c" "in"]

/-- C2 witness: the amended inverse property at a concrete pair of valid
graphs exercising removal, addition, reconfiguration and movement. -/
theorem claim_C2_witness :
    c2Base.Valid ∧ c2Target.Valid ∧ c2Base.name = c2Target.name ∧
      c2Base.version = c2Target.version ∧
      (∀ b ∈ c2Base.blocks, ∀ tb ∈ c2Target.blocks,
        b.id = tb.id → b.typeTag = tb.typeTag) ∧
      ∃ m, merge c2Base (diff c2Base c2Target) = .ok m ∧ m.Equiv c2Target :=
  ⟨by decide, by decide, by decide, by decide, by decide,
    claim_C2_amended c2Base c2Target (by decide) (by decide) (by decide)
      (by decide) (by decide)⟩

/-! ### Canonical ordering and transient safety of a DiffSet -/

/-- The canonical rank of an operation kind: removals before additions
before updates before moves. -/
def opRank : DiffOp → Nat
  | .removeEdge _ => 0
  | .removeBlock _ => 0
  | .addBlock _ => 1
  | .addEdge _ => 1
  | .updateConfig _ _ _ => 2
  | .moveBlock _ _ _ => 3

/-- A DiffSet is kind-ordered when the ranks of its operations never
decrease along the list. -/
def KindOrdered (ds : List DiffOp) : Prop :=
  (ds.map opRank).Pairwise (· ≤ ·)

/-- The graph obtained by applying the first k operations of a DiffSet
(conflicting operations are skipped). -/
def mergeStates (g : Graph) (ops : List DiffOp) (k : Nat) : Graph :=
  (mergeRun g (ops.take k)).1

theorem pairwise_le_of_const {l : List Nat} {c : Nat} (h : ∀ x ∈ l, x = c) :
    l.Pairwise (· ≤ ·) := by
  induction l with
  | nil => exact List.Pairwise.nil
  | cons a t ih =>
    refine List.Pairwise.cons ?_ (ih fun x hx => h x (List.mem_cons_of_mem _ hx))
    intro b hb
    rw [h a (List.mem_cons_self _ _), h b (List.mem_cons_of_mem _ hb)]

theorem applyOp_removeEdge_ok {g g2 : Graph} {e : Edge}
    (h : applyOp g (.removeEdge e) = .ok g2) :
    g2.blocks = g.blocks ∧ ∀ f ∈ g2.edges, f ∈ g.edges := by
  simp only [applyOp] at h
  split at h
  · cases h
    exact ⟨rfl, fun f hf => (List.mem_filter.mp hf).1⟩
  · cases h

theorem applyOp_removeBlock_ok {g g2 : Graph} {b : Block}
    (h : applyOp g (.removeBlock b) = .ok g2) :
    g2.edges = g.edges ∧
      g2.blocks = g.blocks.filter (fun c => decide (c.id ≠ b.id)) := by
  simp only [applyOp] at h
  split at h
  · cases h
    exact ⟨rfl, rfl⟩
  · cases h

theorem applyOp_addBlock_ok {g g2 : Graph} {b : Block}
    (h : applyOp g (.addBlock b) = .ok g2) :
    g2.edges = g.edges ∧ g2.blocks = g.blocks ++ [b] := by
  simp only [applyOp] at h
  split at h
  · cases h
  · cases h
    exact ⟨rfl, rfl⟩

theorem applyOp_addEdge_ok {g g2 : Graph} {e : Edge}
    (h : applyOp g (.addEdge e) = .ok g2) :
    g2.blocks = g.blocks ∧ g2.edges = g.edges ++ [e] := by
  simp only [applyOp] at h
  split at h
  · cases h
  · cases h
    exact ⟨rfl, rfl⟩

theorem applyOp_updateConfig_ok {g g2 : Graph} {i : String} {o n : CVMap}
    (h : applyOp g (.updateConfig i o n) = .ok g2) :
    g2.edges = g.edges ∧ g2.blocks.map (·.id) = g.blocks.map (·.id) := by
  simp only [applyOp] at h
  split at h
  · split at h
    · cases h
      refine ⟨rfl, ?_⟩
      show (g.blocks.map (fun c =>
          if c.id = i then { c with config := n } else c)).map (fun b => b.id) =
        g.blocks.map (fun b => b.id)
      rw [List.map_map]
      apply List.map_congr_left
      intro c _
      show (if c.id = i then { c with config := n } else c).id = c.id
      by_cases hc : c.id = i <;> simp [hc]
    · cases h
  · cases h

theorem applyOp_moveBlock_ok {g g2 : Graph} {i : String}
    {o n : Option (Int × Int)} (h : applyOp g (.moveBlock i o n) = .ok g2) :
    g2.edges = g.edges ∧ g2.blocks.map (·.id) = g.blocks.map (·.id) := by
  simp only [applyOp] at h
  split at h
  · split at h
    · cases h
      refine ⟨rfl, ?_⟩
      show (g.blocks.map (fun c =>
          if c.id = i then { c with position := n } else c)).map (fun b => b.id) =
        g.blocks.map (fun b => b.id)
      rw [List.map_map]
      apply List.map_congr_left
      intro c _
      show (if c.id = i then { c with position := n } else c).id = c.id
      by_cases hc : c.id = i <;> simp [hc]
    · cases h
  · cases h

/-- Prefix states stay edge-closed along a run whenever some invariant
implying closure is preserved by every successful application of an
operation of the list. -/
theorem mergeStates_closed_generic (P : Graph → Prop)
    (hcl : ∀ g, P g → g.EdgesClosed) :
    ∀ (ops : List DiffOp),
      (∀ g1 op g2, op ∈ ops → P g1 → applyOp g1 op = .ok g2 → P g2) →
      ∀ {g : Graph}, P g → ∀ k, (mergeStates g ops k).EdgesClosed := by
  intro ops
  induction ops with
  | nil =>
    intro _ g hP k
    unfold mergeStates
    rw [List.take_nil]
    exact hcl g hP
  | cons op ops ih =>
    intro hstep g hP k
    cases k with
    | zero =>
      unfold mergeStates
      rw [List.take_zero]
      exact hcl g hP
    | succ k =>
      unfold mergeStates
      rw [List.take_succ_cons]
      show ((mergeRun g (op :: ops.take k)).1).EdgesClosed
      simp only [mergeRun]
      cases happ : applyOp g op with
      | ok g1 =>
        have hP1 : P g1 := hstep g op g1 (List.mem_cons_self _ _) hP happ
        exact ih (fun a b c hb => hstep a b c (List.mem_cons_of_mem _ hb)) hP1 k
      | error c =>
        exact ih (fun a b c hb => hstep a b c (List.mem_cons_of_mem _ hb)) hP k

/-- Composition of prefix closure across a conflict-free phase. -/
theorem mergeStates_closed_append {xs ys : List DiffOp} {g g₁ : Graph}
    (hx : mergeRun g xs = (g₁, []))
    (h1 : ∀ k, (mergeStates g xs k).EdgesClosed)
    (h2 : ∀ k, (mergeStates g₁ ys k).EdgesClosed) :
    ∀ k, (mergeStates g (xs ++ ys) k).EdgesClosed := by
  intro k
  unfold mergeStates
  rw [List.take_append_eq_append_take]
  by_cases hk : k ≤ xs.length
  · rw [Nat.sub_eq_zero_of_le hk, List.take_zero, List.append_nil]
    exact h1 k
  · rw [List.take_of_length_le (by omega)]
    rw [mergeRun_append_clean hx]
    exact h2 (k - xs.length)

theorem diffPhase1 (base target : Graph) (hBed : base.edges.Nodup) :
    mergeRun base ((diffRemovedEdges base target).map .removeEdge) =
      (Graph.mk base.name base.version base.blocks
        (base.edges.filter (fun e => decide (e ∈ target.edges))), []) := by
  have hEeq : base.edges.filter
      (fun e => decide (e ∉ diffRemovedEdges base target)) =
      base.edges.filter (fun e => decide (e ∈ target.edges)) := by
    apply List.filter_congr
    intro e he
    rw [decide_eq_decide]
    simp [diffRemovedEdges, he]
  rw [← hEeq]
  exact mergeRun_removeEdges (hBed.filter _)
    (fun e he => (List.mem_filter.mp he).1)

theorem diffPhase2 (base target : Graph)
    (hBids2 : (base.blocks.map (·.id)).Nodup) (nm : String) (v : Nat)
    (Ed : List Edge) :
    mergeRun (Graph.mk nm v base.blocks Ed)
      ((diffRemovedBlocks base target).map .removeBlock) =
      (Graph.mk nm v
        (base.blocks.filter (fun b => (target.findBlock b.id).isSome)) Ed,
        []) := by
  have hKeq : base.blocks.filter
      (fun b => decide (b.id ∉ (diffRemovedBlocks base target).map (·.id))) =
      base.blocks.filter (fun b => (target.findBlock b.id).isSome) := by
    apply List.filter_congr
    intro b hb
    rcases hfb : target.findBlock b.id with _ | tb
    · have hbrB : b ∈ diffRemovedBlocks base target :=
        List.mem_filter.mpr ⟨hb, by simp [hfb]⟩
      simp only [hfb, Option.isSome_none, decide_eq_false_iff_not, not_not]
      exact List.mem_map_of_mem (·.id) hbrB
    · simp only [hfb, Option.isSome_some, decide_eq_true_eq]
      intro hmem
      obtain ⟨c, hc, hcid⟩ := List.mem_map.mp hmem
      have hcnone := (List.mem_filter.mp hc).2
      rw [hcid] at hcnone
      rw [hfb] at hcnone
      simp at hcnone
  rw [← hKeq]
  exact mergeRun_removeBlocks
    (((List.filter_sublist _).map (fun b : Block => b.id)).nodup hBids2)
    (fun b hb => (List.mem_filter.mp hb).1)

theorem diffPhase3 (base target : Graph)
    (hTids2 : (target.blocks.map (·.id)).Nodup) (nm : String) (v : Nat)
    (Ed : List Edge) :
    mergeRun (Graph.mk nm v
        (base.blocks.filter (fun b => (target.findBlock b.id).isSome)) Ed)
      ((diffAddedBlocks base target).map .addBlock) =
      (Graph.mk nm v
        (base.blocks.filter (fun b => (target.findBlock b.id).isSome) ++
          diffAddedBlocks base target) Ed, []) := by
  exact mergeRun_addBlocks
    (fun b hb => by
      rw [findBlock_eq_none_iff]
      intro hmem
      obtain ⟨c, hc, hcid⟩ := List.mem_map.mp hmem
      have hcbase : c ∈ base.blocks := (List.mem_filter.mp hc).1
      have hbnone := (List.mem_filter.mp hb).2
      rw [Option.isNone_iff_eq_none] at hbnone
      have := findBlock_eq_none_iff.mp hbnone
      exact this (hcid ▸ List.mem_map_of_mem (·.id) hcbase))
    (((List.filter_sublist _).map (fun b : Block => b.id)).nodup hTids2)

theorem diffPhase4 (base target : Graph) (hTed : target.edges.Nodup)
    (nm : String) (v : Nat) (B : List Block) :
    mergeRun (Graph.mk nm v B
        (base.edges.filter (fun e => decide (e ∈ target.edges))))
      ((diffAddedEdges base target).map .addEdge) =
      (Graph.mk nm v B
        (base.edges.filter (fun e => decide (e ∈ target.edges)) ++
          diffAddedEdges base target), []) := by
  exact mergeRun_addEdges
    (fun e he hmem => by
      have h1 := (List.mem_filter.mp he).2
      have h2 := (List.mem_filter.mp hmem).1
      simp only [decide_eq_true_eq] at h1
      exact h1 h2)
    (hTed.filter _)

theorem diff_findK (base target : Graph)
    (hBids2 : (base.blocks.map (·.id)).Nodup)
    (hTids2 : (target.blocks.map (·.id)).Nodup)
    {b : Block} (hb : b ∈ base.blocks)
    (hsome : (target.findBlock b.id).isSome) :
    (base.blocks.filter (fun c => (target.findBlock c.id).isSome) ++
      diffAddedBlocks base target).find? (fun c => c.id = b.id) = some b := by
  have hn4 : ((base.blocks.filter (fun c => (target.findBlock c.id).isSome) ++
      diffAddedBlocks base target).map (·.id)).Nodup := by
    rw [List.map_append]
    refine List.Nodup.append ?_ ?_ ?_
    · exact ((List.filter_sublist _).map (fun c : Block => c.id)).nodup hBids2
    · exact ((List.filter_sublist _).map (fun c : Block => c.id)).nodup hTids2
    · intro i hiK hiaB
      obtain ⟨c, hc, rfl⟩ := List.mem_map.mp hiaB
      have hcnone := (List.mem_filter.mp hc).2
      rw [Option.isNone_iff_eq_none] at hcnone
      obtain ⟨d, hd, hdid⟩ := List.mem_map.mp hiK
      have hdbase : d ∈ base.blocks := (List.mem_filter.mp hd).1
      exact findBlock_eq_none_iff.mp hcnone
        (hdid ▸ List.mem_map_of_mem (·.id) hdbase)
  exact find?_key_of_mem hn4
    (List.mem_append_left _ (List.mem_filter.mpr ⟨hb, hsome⟩))

theorem diffPhase5 (base target : Graph)
    (hBids2 : (base.blocks.map (·.id)).Nodup)
    (hTids2 : (target.blocks.map (·.id)).Nodup)
    (nm : String) (v : Nat) (Ed : List Edge) :
    mergeRun (Graph.mk nm v
        (base.blocks.filter (fun b => (target.findBlock b.id).isSome) ++
          diffAddedBlocks base target) Ed)
      ((diffUpdateTriples base target).map
        (fun u => .updateConfig u.1 u.2.1 u.2.2)) =
      (Graph.mk nm v
        ((base.blocks.filter (fun b => (target.findBlock b.id).isSome) ++
          diffAddedBlocks base target).map
            (applyConfigUpdates (diffUpdateTriples base target))) Ed, []) := by
  exact mergeRun_updates
    ((map_key_filterMap_sublist (updEntry target) (·.1)
      (updEntry_key target) base.blocks).nodup hBids2)
    (fun u hu => by
      rw [diffUpdateTriples_eq] at hu
      obtain ⟨b, hbmem, hfb⟩ := List.mem_filterMap.mp hu
      obtain ⟨tb, htb, _, rfl⟩ := updEntry_some hfb
      exact ⟨b, diff_findK base target hBids2 hTids2 hbmem (by simp [htb]), rfl⟩)

theorem diffPhase6 (base target : Graph)
    (hBids2 : (base.blocks.map (·.id)).Nodup)
    (hTids2 : (target.blocks.map (·.id)).Nodup)
    (nm : String) (v : Nat) (Ed : List Edge) :
    mergeRun (Graph.mk nm v
        ((base.blocks.filter (fun b => (target.findBlock b.id).isSome) ++
          diffAddedBlocks base target).map
            (applyConfigUpdates (diffUpdateTriples base target))) Ed)
      ((diffMoveTriples base target).map
        (fun u => .moveBlock u.1 u.2.1 u.2.2)) =
      (Graph.mk nm v
        (((base.blocks.filter (fun b => (target.findBlock b.id).isSome) ++
          diffAddedBlocks base target).map
            (applyConfigUpdates (diffUpdateTriples base target))).map
            (applyPositionUpdates (diffMoveTriples base target))) Ed, []) := by
  exact mergeRun_moves
    ((map_key_filterMap_sublist (movEntry target) (·.1)
      (movEntry_key target) base.blocks).nodup hBids2)
    (fun u hu => by
      rw [diffMoveTriples_eq] at hu
      obtain ⟨b, hbmem, hfb⟩ := List.mem_filterMap.mp hu
      obtain ⟨tb, htb, _, rfl⟩ := movEntry_some hfb
      refine ⟨applyConfigUpdates (diffUpdateTriples base target) b, ?_, ?_⟩
      · show ((base.blocks.filter (fun c => (target.findBlock c.id).isSome) ++
            diffAddedBlocks base target).map
              (applyConfigUpdates (diffUpdateTriples base target))).find?
            (fun c => c.id = b.id) =
          some (applyConfigUpdates (diffUpdateTriples base target) b)
        rw [find?_map_idpres (applyConfigUpdates_id _),
          diff_findK base target hBids2 hTids2 hbmem (by simp [htb])]
        rfl
      · rw [applyConfigUpdates_position])

theorem edgesClosed_of {g g2 : Graph} (h : g.EdgesClosed)
    (hbl : g2.blocks.map (·.id) = g.blocks.map (·.id))
    (hed : ∀ f ∈ g2.edges, f ∈ g.edges) : g2.EdgesClosed := by
  intro f hf
  have := h f (hed f hf)
  unfold Graph.blockIds at this ⊢
  rw [hbl]
  exact this

theorem mem_ids_filter_ne {l : List Block} {i j : String}
    (hi : i ∈ l.map (·.id)) (hne : i ≠ j) :
    i ∈ (l.filter (fun c => decide (c.id ≠ j))).map (·.id) := by
  obtain ⟨c, hc, rfl⟩ := List.mem_map.mp hi
  exact List.mem_map_of_mem (fun c : Block => c.id)
    (List.mem_filter.mpr ⟨hc, decide_eq_true hne⟩)

theorem mem_ids_keep {base target : Graph} {i : String}
    (hib : i ∈ base.blockIds) (hit : i ∈ target.blockIds) :
    i ∈ (base.blocks.filter
      (fun b => (target.findBlock b.id).isSome)).map (·.id) := by
  obtain ⟨b, hb, rfl⟩ := List.mem_map.mp hib
  refine List.mem_map_of_mem (·.id) (List.mem_filter.mpr ⟨hb, ?_⟩)
  rw [findBlock_isSome_iff]
  exact hit

theorem target_ids_sub {base target : Graph} {i : String}
    (hit : i ∈ target.blockIds) :
    i ∈ ((base.blocks.filter (fun b => (target.findBlock b.id).isSome) ++
      diffAddedBlocks base target).map (·.id)) := by
  rw [List.map_append, List.mem_append]
  by_cases hib : i ∈ base.blockIds
  · left
    exact mem_ids_keep hib hit
  · right
    obtain ⟨tb, htb, rfl⟩ := List.mem_map.mp hit
    refine List.mem_map_of_mem (·.id) (List.mem_filter.mpr ⟨htb, ?_⟩)
    rw [Option.isNone_iff_eq_none, findBlock_eq_none_iff]
    simpa using hib

/-- Spec example: base graph with blocks A, B and edge A→B. -/
def exBase4 : Graph :=
  Graph.mk "wf" 1
    [Block.mk "A" "agent" CVMap.nil none, Block.mk "B" "tool" CVMap.nil none]
    [Edge.mk "A" "out" "B" "in"]

/-- Spec example: target graph with blocks A, B, C and edges A→B, B→C. -/
def exTarget4 : Graph :=
  Graph.mk "wf" 1
    [Block.mk "A" "agent" CVMap.nil none, Block.mk "B" "tool" CVMap.nil none,
     Block.mk "C" "tool" CVMap.nil none]
    [Edge.mk "A" "out" "B" "in", Edge.mk "B" "out" "C" "in"]

/-- C4: the diff of any two valid graphs is emitted in the fixed order
removals, additions, updates, moves, and applying it to the base never
transiently leaves an edge referencing a block that does not exist — every
prefix state is edge-closed.  On the spec's example the diff is exactly
AddBlock(C) followed by AddEdge(B→C). -/
theorem claim_C4 (base target : Graph) (hB : base.Valid) (hT : target.Valid) :
    KindOrdered (diff base target) ∧
    (∀ k, (mergeStates base (diff base target) k).EdgesClosed) ∧
    diff exBase4 exTarget4 =
      [DiffOp.addBlock (Block.mk "C" "tool" CVMap.nil none),
       DiffOp.addEdge (Edge.mk "B" "out" "C" "in")] := by
  obtain ⟨hBids, hBed, hBcl⟩ := hB
  obtain ⟨hTids, hTed, hTcl⟩ := hT
  have hBids2 : (base.blocks.map (·.id)).Nodup := hBids
  have hTids2 : (target.blocks.map (·.id)).Nodup := hTids
  refine ⟨?_, ?_, by decide⟩
  · -- canonical kind order
    unfold KindOrdered diff
    rw [diffUpdates_eq, diffMoves_eq]
    simp only [List.map_append]
    have c1 : ∀ x ∈ ((diffRemovedEdges base target).map DiffOp.removeEdge).map
        opRank, x = 0 := by
      intro x hx
      obtain ⟨y, hy, rfl⟩ := List.mem_map.mp hx
      obtain ⟨e, _, rfl⟩ := List.mem_map.mp hy
      rfl
    have c2 : ∀ x ∈ ((diffRemovedBlocks base target).map DiffOp.removeBlock).map
        opRank, x = 0 := by
      intro x hx
      obtain ⟨y, hy, rfl⟩ := List.mem_map.mp hx
      obtain ⟨b, _, rfl⟩ := List.mem_map.mp hy
      rfl
    have c3 : ∀ x ∈ ((diffAddedBlocks base target).map DiffOp.addBlock).map
        opRank, x = 1 := by
      intro x hx
      obtain ⟨y, hy, rfl⟩ := List.mem_map.mp hx
      obtain ⟨b, _, rfl⟩ := List.mem_map.mp hy
      rfl
    have c4 : ∀ x ∈ ((diffAddedEdges base target).map DiffOp.addEdge).map
        opRank, x = 1 := by
      intro x hx
      obtain ⟨y, hy, rfl⟩ := List.mem_map.mp hx
      obtain ⟨e, _, rfl⟩ := List.mem_map.mp hy
      rfl
    have c5 : ∀ x ∈ (((diffUpdateTriples base target).map
        (fun u => DiffOp.updateConfig u.1 u.2.1 u.2.2)).map opRank), x = 2 := by
      intro x hx
      obtain ⟨y, hy, rfl⟩ := List.mem_map.mp hx
      obtain ⟨u, _, rfl⟩ := List.mem_map.mp hy
      rfl
    have c6 : ∀ x ∈ (((diffMoveTriples base target).map
        (fun u => DiffOp.moveBlock u.1 u.2.1 u.2.2)).map opRank), x = 3 := by
      intro x hx
      obtain ⟨y, hy, rfl⟩ := List.mem_map.mp hx
      obtain ⟨u, _, rfl⟩ := List.mem_map.mp hy
      rfl
    have p2 := List.pairwise_append.mpr
      ⟨pairwise_le_of_const c1, pairwise_le_of_const c2,
        fun a ha b hb => by rw [c1 a ha, c2 b hb]⟩
    have c12 : ∀ x ∈ ((diffRemovedEdges base target).map DiffOp.removeEdge).map
        opRank ++ ((diffRemovedBlocks base target).map DiffOp.removeBlock).map
        opRank, x ≤ 0 := by
      intro x hx
      rcases List.mem_append.mp hx with h | h
      · rw [c1 x h]
      · rw [c2 x h]
    have p3 := List.pairwise_append.mpr
      ⟨p2, pairwise_le_of_const c3,
        fun a ha b hb => by have := c12 a ha; rw [c3 b hb]; omega⟩
    have c13 : ∀ x ∈ (((diffRemovedEdges base target).map DiffOp.removeEdge).map
        opRank ++ ((diffRemovedBlocks base target).map DiffOp.removeBlock).map
        opRank) ++ ((diffAddedBlocks base target).map DiffOp.addBlock).map
        opRank, x ≤ 1 := by
      intro x hx
      rcases List.mem_append.mp hx with h | h
      · have := c12 x h; omega
      · rw [c3 x h]
    have p4 := List.pairwise_append.mpr
      ⟨p3, pairwise_le_of_const c4,
        fun a ha b hb => by have := c13 a ha; rw [c4 b hb]; omega⟩
    have c14 : ∀ x ∈ ((((diffRemovedEdges base target).map DiffOp.removeEdge).map
        opRank ++ ((diffRemovedBlocks base target).map DiffOp.removeBlock).map
        opRank) ++ ((diffAddedBlocks base target).map DiffOp.addBlock).map
        opRank) ++ ((diffAddedEdges base target).map DiffOp.addEdge).map
        opRank, x ≤ 1 := by
      intro x hx
      rcases List.mem_append.mp hx with h | h
      · exact c13 x h
      · rw [c4 x h]
    have p5 := List.pairwise_append.mpr
      ⟨p4, pairwise_le_of_const c5,
        fun a ha b hb => by have := c14 a ha; rw [c5 b hb]; omega⟩
    have c15 : ∀ x ∈ (((((diffRemovedEdges base target).map DiffOp.removeEdge).map
        opRank ++ ((diffRemovedBlocks base target).map DiffOp.removeBlock).map
        opRank) ++ ((diffAddedBlocks base target).map DiffOp.addBlock).map
        opRank) ++ ((diffAddedEdges base target).map DiffOp.addEdge).map
        opRank) ++ (((diffUpdateTriples base target).map
        (fun u => DiffOp.updateConfig u.1 u.2.1 u.2.2)).map opRank), x ≤ 2 := by
      intro x hx
      rcases List.mem_append.mp hx with h | h
      · have := c14 x h; omega
      · rw [c5 x h]
    exact List.pairwise_append.mpr
      ⟨p5, pairwise_le_of_const c6,
        fun a ha b hb => by have := c15 a ha; rw [c6 b hb]; omega⟩
  · -- every prefix state is edge-closed
    unfold diff
    rw [diffUpdates_eq, diffMoves_eq]
    simp only [List.append_assoc]
    refine mergeStates_closed_append (diffPhase1 base target hBed) ?_
      (mergeStates_closed_append
        (diffPhase2 base target hBids2 base.name base.version _) ?_
        (mergeStates_closed_append
          (diffPhase3 base target hTids2 base.name base.version _) ?_
          (mergeStates_closed_append
            (diffPhase4 base target hTed base.name base.version _) ?_
            (mergeStates_closed_append
              (diffPhase5 base target hBids2 hTids2 base.name base.version _)
              ?_ ?_))))
    · -- phase 1: removing edges keeps closure
      refine mergeStates_closed_generic Graph.EdgesClosed (fun _ h => h) _
        ?_ hBcl
      intro g1 op g2 hop hP happ
      obtain ⟨e, _, rfl⟩ := List.mem_map.mp hop
      obtain ⟨hbl, hed⟩ := applyOp_removeEdge_ok happ
      exact edgesClosed_of hP (by rw [hbl]) hed
    · -- phase 2: removing target-absent blocks keeps closure
      refine mergeStates_closed_generic
        (fun g => g.EdgesClosed ∧ ∀ f ∈ g.edges,
          f.src ∈ target.blockIds ∧ f.tgt ∈ target.blockIds)
        (fun _ h => h.1) _ ?_ ?_
      · intro g1 op g2 hop hP happ
        obtain ⟨r, hrB, rfl⟩ := List.mem_map.mp hop
        obtain ⟨hede, hblk⟩ := applyOp_removeBlock_ok happ
        have hrid : r.id ∉ target.blockIds := by
          have := (List.mem_filter.mp hrB).2
          rw [Option.isNone_iff_eq_none] at this
          exact findBlock_eq_none_iff.mp this
        constructor
        · intro f hf
          rw [hede] at hf
          obtain ⟨hs, ht⟩ := hP.1 f hf
          obtain ⟨hts, htt⟩ := hP.2 f hf
          unfold Graph.blockIds
          rw [hblk]
          exact ⟨mem_ids_filter_ne hs (fun hEq => hrid (hEq ▸ hts)),
            mem_ids_filter_ne ht (fun hEq => hrid (hEq ▸ htt))⟩
        · intro f hf
          rw [hede] at hf
          exact hP.2 f hf
      · constructor
        · intro f hf
          have hfb : f ∈ base.edges := (List.mem_filter.mp hf).1
          exact hBcl f hfb
        · intro f hf
          have hft : f ∈ target.edges := by
            have := (List.mem_filter.mp hf).2
            simpa using this
          exact hTcl f hft
    · -- phase 3: adding blocks keeps closure
      refine mergeStates_closed_generic Graph.EdgesClosed (fun _ h => h) _
        ?_ ?_
      · intro g1 op g2 hop hP happ
        obtain ⟨b, _, rfl⟩ := List.mem_map.mp hop
        obtain ⟨hede, hblk⟩ := applyOp_addBlock_ok happ
        intro f hf
        rw [hede] at hf
        obtain ⟨hs, ht⟩ := hP f hf
        unfold Graph.blockIds
        rw [hblk, List.map_append]
        exact ⟨List.mem_append_left _ hs, List.mem_append_left _ ht⟩
      · intro f hf
        have hfb : f ∈ base.edges := (List.mem_filter.mp hf).1
        have hft : f ∈ target.edges := by
          have := (List.mem_filter.mp hf).2
          simpa using this
        obtain ⟨hs, ht⟩ := hTcl f hft
        obtain ⟨hbs, hbt⟩ := hBcl f hfb
        exact ⟨mem_ids_keep hbs hs, mem_ids_keep hbt ht⟩
    · -- phase 4: adding target edges keeps closure
      refine mergeStates_closed_generic
        (fun g => g.EdgesClosed ∧ ∀ e ∈ diffAddedEdges base target,
          e.src ∈ g.blockIds ∧ e.tgt ∈ g.blockIds)
        (fun _ h => h.1) _ ?_ ?_
      · intro g1 op g2 hop hP happ
        obtain ⟨e, heA, rfl⟩ := List.mem_map.mp hop
        obtain ⟨hblk, hede⟩ := applyOp_addEdge_ok happ
        have hids : g2.blockIds = g1.blockIds := by
          unfold Graph.blockIds
          rw [hblk]
        constructor
        · intro f hf
          rw [hede, List.mem_append] at hf
          rw [hids]
          rcases hf with h | h
          · exact hP.1 f h
          · rw [List.mem_singleton] at h
            subst h
            exact hP.2 f heA
        · intro f hfA
          rw [hids]
          exact hP.2 f hfA
      · constructor
        · intro f hf
          have hft : f ∈ target.edges := by
            have := (List.mem_filter.mp hf).2
            simpa using this
          obtain ⟨hs, ht⟩ := hTcl f hft
          exact ⟨target_ids_sub hs, target_ids_sub ht⟩
        · intro e heA
          have het : e ∈ target.edges := (List.mem_filter.mp heA).1
          obtain ⟨hs, ht⟩ := hTcl e het
          exact ⟨target_ids_sub hs, target_ids_sub ht⟩
    · -- phase 5: config updates keep closure
      refine mergeStates_closed_generic Graph.EdgesClosed (fun _ h => h) _
        ?_ ?_
      · intro g1 op g2 hop hP happ
        obtain ⟨u, _, rfl⟩ := List.mem_map.mp hop
        obtain ⟨hede, hblk⟩ := applyOp_updateConfig_ok happ
        exact edgesClosed_of hP hblk (fun f hf => by rw [← hede]; exact hf)
      · intro f hf
        have hft : f ∈ target.edges := by
          rcases List.mem_append.mp hf with h | h
          · have := (List.mem_filter.mp h).2
            simpa using this
          · exact (List.mem_filter.mp h).1
        obtain ⟨hs, ht⟩ := hTcl f hft
        exact ⟨target_ids_sub hs, target_ids_sub ht⟩
    · -- phase 6: position updates keep closure
      refine mergeStates_closed_generic Graph.EdgesClosed (fun _ h => h) _
        ?_ ?_
      · intro g1 op g2 hop hP happ
        obtain ⟨u, _, rfl⟩ := List.mem_map.mp hop
        obtain ⟨hede, hblk⟩ := applyOp_moveBlock_ok happ
        exact edgesClosed_of hP hblk (fun f hf => by rw [← hede]; exact hf)
      · intro f hf
        have hft : f ∈ target.edges := by
          rcases List.mem_append.mp hf with h | h
          · have := (List.mem_filter.mp h).2
            simpa using this
          · exact (List.mem_filter.mp h).1
        obtain ⟨hs, ht⟩ := hTcl f hft
        have hsub := @target_ids_sub base target f.src hs
        have htub := @target_ids_sub base target f.tgt ht
        unfold Graph.blockIds
        constructor
        · rw [List.map_map]
          have : ((base.blocks.filter
              (fun b => (target.findBlock b.id).isSome) ++
                diffAddedBlocks base target).map
              ((fun b : Block => b.id) ∘
                applyConfigUpdates (diffUpdateTriples base target))) =
              ((base.blocks.filter
              (fun b => (target.findBlock b.id).isSome) ++
                diffAddedBlocks base target).map (fun b : Block => b.id)) := by
            apply List.map_congr_left
            intro c _
            show (applyConfigUpdates (diffUpdateTriples base target) c).id = c.id
            rw [applyConfigUpdates_id]
          rw [this]
          exact hsub
        · rw [List.map_map]
          have : ((base.blocks.filter
              (fun b => (target.findBlock b.id).isSome) ++
                diffAddedBlocks base target).map
              ((fun b : Block => b.id) ∘
                applyConfigUpdates (diffUpdateTriples base target))) =
              ((base.blocks.filter
              (fun b => (target.findBlock b.id).isSome) ++
                diffAddedBlocks base target).map (fun b : Block => b.id)) := by
            apply List.map_congr_left
            intro c _
            show (applyConfigUpdates (diffUpdateTriples base target) c).id = c.id
            rw [applyConfigUpdates_id]
          rw [this]
          exact htub

/-- C4 witness: the ordering and transient-safety guarantees at the spec's
concrete example pair. -/
theorem claim_C4_witness :
    exBase4.Valid ∧ exTarget4.Valid ∧
      (KindOrdered (diff exBase4 exTarget4) ∧
        (∀ k, (mergeStates exBase4 (diff exBase4 exTarget4) k).EdgesClosed) ∧
        diff exBase4 exTarget4 =
          [DiffOp.addBlock (Block.mk "C" "tool" CVMap.nil none),
           DiffOp.addEdge (Edge.mk "B" "out" "C" "in")]) :=
  ⟨by decide, by decide, claim_C4 exBase4 exTarget4 (by decide) (by decide)⟩

/-! ## Layout engine

Modelled from the spec, section 4.6.  Three deterministic strategies
compute 2-D coordinates for every block.  Coordinates are rationals (the
embedding of the implementation's machine reals); the force-directed
simulation uses square-distance-based rational force laws (a square-root
free rendering of the spec's repulsion/attraction laws).  Per section 9 the
barycenter crossing-minimization pass is flagged by the spec itself as a
design choice rather than a requirement; within a rank we order blocks by
id, the same lexicographic tie-break the spec fixes for the grid strategy.
An explicit `entropy` argument models the system entropy available to an
implementation; per the spec the engine must never consume it — any
initial-placement randomness is seeded from the graph's own ids. -/

/-- Layout options: grid cell sizes and column count, hierarchical
direction, and the force-directed simulation's iteration budget,
convergence threshold, target edge length and repulsion constant. -/
structure LayoutOptions where
  cellWidth : ℚ
  cellHeight : ℚ
  columns : Nat
  topDown : Bool
  maxIterations : Nat
  threshold : ℚ
  edgeLength : ℚ
  repulsion : ℚ

/-- The selectable layout strategy. -/
inductive Strategy where
  | grid
  | hierarchical
  | forceDirected

/-- Insert into a list sorted by `le`. -/
def insertLe {α : Type} (le : α → α → Bool) (a : α) : List α → List α
  | [] => [a]
  | b :: l => if le a b then a :: b :: l else b :: insertLe le a l

/-- Insertion sort by `le`. -/
def sortLe {α : Type} (le : α → α → Bool) : List α → List α
  | [] => []
  | a :: l => insertLe le a (sortLe le l)

/-- Index of a string in a list (length if absent). -/
def idxOf (i : String) : List String → Nat
  | [] => 0
  | x :: xs => if x = i then 0 else idxOf i xs + 1

/-- Kahn-style topological ordering with lexicographic tie-break; when only
cyclic blocks remain, the lexicographically smallest remaining id is taken,
so the traversal tolerates cycles and always terminates. -/
def topoGo (edges : List Edge) : Nat → List String → List String
  | 0, _ => []
  | fuel + 1, remaining =>
    let cands := remaining.filter (fun i =>
      edges.all (fun e => !(decide (e.tgt = i) && decide (e.src ∈ remaining))))
    let pool := if cands.isEmpty then remaining else cands
    match pool with
    | [] => []
    | x :: xs =>
      let m := xs.foldl (fun a b => if strLe b a then b else a) x
      m :: topoGo edges fuel (remaining.filter (fun j => decide (j ≠ m)))

/-- Grid strategy: blocks in topological order (ties broken by id), placed
left-to-right, wrapping after `columns` cells. -/
def gridLayout (g : Graph) (o : LayoutOptions) : List (String × ℚ × ℚ) :=
  let order := topoGo g.edges g.blocks.length (g.blocks.map (·.id))
  let cols := max 1 o.columns
  order.enum.map (fun p =>
    (p.2, (((p.1 % cols : Nat) : ℚ) * o.cellWidth,
           ((p.1 / cols : Nat) : ℚ) * o.cellHeight)))

/-- One longest-path relaxation pass over the rank table. -/
def rankStep (edges : List Edge) (ranks : List (String × Nat)) :
    List (String × Nat) :=
  ranks.map (fun p =>
    let preds := edges.filterMap (fun e =>
      if e.tgt = p.1 then some e.src else none)
    (p.1, preds.foldl (fun acc s =>
      match ranks.find? (fun q => q.1 = s) with
      | some q => max acc (q.2 + 1)
      | none => acc) 0))

/-- Iterate a function a fixed number of times. -/
def iterateN {α : Type} (f : α → α) : Nat → α → α
  | 0, a => a
  | n + 1, a => iterateN f n (f a)

/-- Block ranks: longest path length from a source, computed by one
relaxation pass per block; the bounded pass count breaks cycles, so the
computation always terminates. -/
def ranksOf (g : Graph) : List (String × Nat) :=
  iterateN (rankStep g.edges) g.blocks.length (g.blocks.map (fun b => (b.id, 0)))

/-- Hierarchical strategy: rank along one axis, id-ordered index within the
rank along the other, direction selected by `topDown`. -/
def hierLayout (g : Graph) (o : LayoutOptions) : List (String × ℚ × ℚ) :=
  let ranks := ranksOf g
  ranks.map (fun p =>
    let same := sortLe strLe ((ranks.filter (fun q => q.2 = p.2)).map (·.1))
    let ix : ℚ := (idxOf p.1 same : Nat)
    if o.topDown then
      (p.1, (ix * o.cellWidth, (p.2 : ℚ) * o.cellHeight))
    else
      (p.1, ((p.2 : ℚ) * o.cellHeight, ix * o.cellWidth)))

/-- Deterministic seed derived from a block id's characters — never from
system entropy. -/
def seedOf (s : String) : Nat :=
  s.data.foldl (fun a c => (a * 31 + c.toNat) % 1000003) 7

/-- Initial placement for the force-directed strategy, seeded from the
graph's own ids. -/
def initPositions (g : Graph) : List (String × ℚ × ℚ) :=
  g.blocks.map (fun b =>
    (b.id, (((seedOf b.id % 997 : Nat) : ℚ),
            ((seedOf (b.id ++ "y") % 997 : Nat) : ℚ))))

/-- Net force on one block: repulsion from every other block decreasing
with squared distance, attraction along incident edges growing once the
squared distance exceeds the squared target edge length. -/
def forceOn (o : LayoutOptions) (edges : List Edge)
    (ps : List (String × ℚ × ℚ)) (p : String × ℚ × ℚ) : ℚ × ℚ :=
  let rep := ps.foldl (fun acc q =>
    if q.1 = p.1 then acc
    else
      let dx := p.2.1 - q.2.1
      let dy := p.2.2 - q.2.2
      let d2 := dx * dx + dy * dy + 1
      (acc.1 + o.repulsion * dx / d2, acc.2 + o.repulsion * dy / d2)) (0, 0)
  let att := edges.foldl (fun acc e =>
    if e.src = p.1 ∨ e.tgt = p.1 then
      let other := if e.src = p.1 then e.tgt else e.src
      match ps.find? (fun q => q.1 = other) with
      | some q =>
        let dx := q.2.1 - p.2.1
        let dy := q.2.2 - p.2.2
        let d2 := dx * dx + dy * dy
        let k := (d2 - o.edgeLength * o.edgeLength) / (d2 + 1) / 100
        (acc.1 + k * dx, acc.2 + k * dy)
      | none => acc
    else acc) (0, 0)
  (rep.1 + att.1, rep.2 + att.2)

/-- One simulation step: every block moves along its net force. -/
def forceStep (g : Graph) (o : LayoutOptions)
    (ps : List (String × ℚ × ℚ)) : List (String × ℚ × ℚ) :=
  ps.map (fun p =>
    let f := forceOn o g.edges ps p
    (p.1, (p.2.1 + f.1 / 10, p.2.2 + f.2 / 10)))

/-- Total displacement between two successive position tables. -/
def totalDisplacement (ps qs : List (String × ℚ × ℚ)) : ℚ :=
  (ps.zip qs).foldl
    (fun acc pq => acc + |pq.1.2.1 - pq.2.2.1| + |pq.1.2.2 - pq.2.2.2|) 0

/-- The bounded simulation loop: runs for at most the given fuel, stopping
as soon as the total displacement of a step falls below the convergence
threshold, and reports the number of iterations actually executed. -/
def forceLoop (g : Graph) (o : LayoutOptions) :
    Nat → List (String × ℚ × ℚ) → List (String × ℚ × ℚ) × Nat
  | 0, ps => (ps, 0)
  | fuel + 1, ps =>
    let ps2 := forceStep g o ps
    if totalDisplacement ps ps2 < o.threshold then (ps2, 1)
    else
      let r := forceLoop g o fuel ps2
      (r.1, r.2 + 1)

/-- Run the force-directed simulation from the id-seeded initial placement
under the options' iteration budget. -/
def forceRun (g : Graph) (o : LayoutOptions) :
    List (String × ℚ × ℚ) × Nat :=
  forceLoop g o o.maxIterations (initPositions g)

/-- Modelled from the spec, section 4.6: `layout(graph, strategy, options)`.
The extra `entropy` argument stands for the ambient system randomness an
implementation could observe; a conforming engine never reads it. -/
def layout (g : Graph) (s : Strategy) (o : LayoutOptions)
    (_entropy : Nat) : List (String × ℚ × ℚ) :=
  match s with
  | .grid => gridLayout g o
  | .hierarchical => hierLayout g o
  | .forceDirected => (forceRun g o).1

/-- C6: layout is deterministic — for a fixed (graph, strategy, options)
triple the result is bit-identical across invocations regardless of the
ambient entropy, for all three strategies; the force-directed initial
placement is seeded from the graph's own ids (`seedOf`), not from system
entropy. -/
theorem claim_C6 (g : Graph) (s : Strategy) (o : LayoutOptions)
    (e₁ e₂ : Nat) :
    layout g s o e₁ = layout g s o e₂ ∧
      (s = .forceDirected →
        layout g s o e₁ = (forceLoop g o o.maxIterations (initPositions g)).1) := by
  constructor
  · rfl
  · intro hs
    rw [hs]
    rfl

/-- C6 witness: determinism at a concrete graph, strategy, options and two
different entropy values. -/
theorem claim_C6_witness :
    layout exBase4 Strategy.forceDirected
        (LayoutOptions.mk 10 10 3 true 5 1 30 100) 0 =
      layout exBase4 Strategy.forceDirected
        (LayoutOptions.mk 10 10 3 true 5 1 30 100) 37 ∧
      (Strategy.forceDirected = Strategy.forceDirected →
        layout exBase4 Strategy.forceDirected
          (LayoutOptions.mk 10 10 3 true 5 1 30 100) 0 =
        (forceLoop exBase4 (LayoutOptions.mk 10 10 3 true 5 1 30 100)
          (LayoutOptions.mk 10 10 3 true 5 1 30 100).maxIterations
          (initPositions exBase4)).1) :=
  claim_C6 exBase4 Strategy.forceDirected
    (LayoutOptions.mk 10 10 3 true 5 1 30 100) 0 37

/-- C7: the force-directed strategy always terminates within its fixed
iteration budget — the loop executes at most `fuel` iterations, the full
run at most `options.maxIterations` — and it stops after a single
iteration as soon as the first step's total displacement falls below the
convergence threshold. -/
theorem claim_C7 (g : Graph) (o : LayoutOptions) (n : Nat)
    (ps : List (String × ℚ × ℚ)) :
    (forceLoop g o n ps).2 ≤ n ∧
      (forceRun g o).2 ≤ o.maxIterations ∧
      (totalDisplacement ps (forceStep g o ps) < o.threshold →
        (forceLoop g o n ps).2 ≤ 1) := by
  have hle : ∀ (m : Nat) (qs : List (String × ℚ × ℚ)),
      (forceLoop g o m qs).2 ≤ m := by
    intro m
    induction m with
    | zero => intro qs; simp [forceLoop]
    | succ m ih =>
      intro qs
      simp only [forceLoop]
      split
      · simp
      · simpa using Nat.succ_le_succ (ih (forceStep g o qs))
  refine ⟨hle n ps, hle o.maxIterations (initPositions g), ?_⟩
  intro hconv
  cases n with
  | zero => simp [forceLoop]
  | succ n =>
    simp only [forceLoop]
    rw [if_pos hconv]

/-- C7 witness: the bounds at a concrete graph, options, fuel and start
state whose first step already converges, with the early-stop hypothesis
discharged concretely. -/
theorem claim_C7_witness :
    (forceLoop cxBase (LayoutOptions.mk 10 10 3 true 5 1 30 100) 4 []).2 ≤ 4 ∧
      (forceRun cxBase (LayoutOptions.mk 10 10 3 true 5 1 30 100)).2 ≤
        (LayoutOptions.mk 10 10 3 true 5 1 30 100).maxIterations ∧
      totalDisplacement []
          (forceStep cxBase (LayoutOptions.mk 10 10 3 true 5 1 30 100) []) <
            (LayoutOptions.mk 10 10 3 true 5 1 30 100).threshold ∧
      (forceLoop cxBase (LayoutOptions.mk 10 10 3 true 5 1 30 100) 4 []).2 ≤ 1 :=
  ⟨(claim_C7 cxBase (LayoutOptions.mk 10 10 3 true 5 1 30 100) 4 []).1,
    (claim_C7 cxBase (LayoutOptions.mk 10 10 3 true 5 1 30 100) 4 []).2.1,
    by decide,
    (claim_C7 cxBase (LayoutOptions.mk 10 10 3 true 5 1 30 100) 4 []).2.2
      (by decide)⟩

/-! ## Codec

Modelled from the spec, sections 4.2 and 6: `serialize(Graph) -> text` is
canonical — fixed document key order, blocks ordered by id — and
`parse(text) -> Graph` inverts it; parsing rejects a document that does not
carry the expected schema-version header or has trailing garbage.  The
concrete grammar is a length- and count-prefixed textual encoding (the
spec leaves the exact surface syntax to the externally supplied schema
version); every string is length-prefixed so arbitrary ids, keys and
values survive a round trip verbatim, numbers are written least
significant digit first and terminated by a colon. -/

theorem insertLe_perm {α : Type} (le : α → α → Bool) (a : α) (l : List α) :
    (insertLe le a l).Perm (a :: l) := by
  induction l with
  | nil => exact List.Perm.refl _
  | cons b t ih =>
    unfold insertLe
    split
    · exact List.Perm.refl _
    · exact (List.Perm.cons b ih).trans (List.Perm.swap a b t)

theorem sortLe_perm {α : Type} (le : α → α → Bool) (l : List α) :
    (sortLe le l).Perm l := by
  induction l with
  | nil => exact List.Perm.refl _
  | cons a t ih =>
    exact (insertLe_perm le a (sortLe le t)).trans (List.Perm.cons a ih)

theorem insertLe_sorted {α : Type} {le : α → α → Bool}
    (htot : ∀ x y, le x y = true ∨ le y x = true)
    (htrans : ∀ x y z, le x y = true → le y z = true → le x z = true)
    {l : List α} (hl : l.Pairwise (fun x y => le x y = true)) (a : α) :
    (insertLe le a l).Pairwise (fun x y => le x y = true) := by
  induction l with
  | nil => simp [insertLe]
  | cons b t ih =>
    rw [List.pairwise_cons] at hl
    unfold insertLe
    split
    · rename_i hab
      rw [List.pairwise_cons]
      refine ⟨?_, List.pairwise_cons.mpr hl⟩
      intro y hy
      rcases List.mem_cons.mp hy with rfl | hyt
      · exact hab
      · exact htrans a b y hab (hl.1 y hyt)
    · rename_i hab
      have hba : le b a = true := by
        rcases htot a b with h | h
        · exact absurd h hab
        · exact h
      rw [List.pairwise_cons]
      refine ⟨?_, ih hl.2⟩
      intro y hy
      have := (insertLe_perm le a t).mem_iff.mp hy
      rcases List.mem_cons.mp this with rfl | hyt
      · exact hba
      · exact hl.1 y hyt

theorem sortLe_sorted {α : Type} {le : α → α → Bool}
    (htot : ∀ x y, le x y = true ∨ le y x = true)
    (htrans : ∀ x y z, le x y = true → le y z = true → le x z = true)
    (l : List α) :
    (sortLe le l).Pairwise (fun x y => le x y = true) := by
  induction l with
  | nil => exact List.Pairwise.nil
  | cons a t ih => exact insertLe_sorted htot htrans ih a

theorem sortLe_of_sorted {α : Type} {le : α → α → Bool} {l : List α}
    (hl : l.Pairwise (fun x y => le x y = true)) : sortLe le l = l := by
  induction l with
  | nil => rfl
  | cons a t ih =>
    rw [List.pairwise_cons] at hl
    unfold sortLe
    rw [ih hl.2]
    cases t with
    | nil => rfl
    | cons b u =>
      unfold insertLe
      rw [if_pos (hl.1 b (List.mem_cons_self _ _))]

/-! ### Decimal atoms -/

/-- Whether a character is a decimal digit. -/
def isDig (c : Char) : Bool := decide (48 ≤ c.toNat ∧ c.toNat ≤ 57)

/-- The numeric value of a digit character. -/
def digitVal (c : Char) : Nat := c.toNat - 48

/-- The character of a decimal digit. -/
def digitChar : Nat → Char
  | 0 => '0' | 1 => '1' | 2 => '2' | 3 => '3' | 4 => '4'
  | 5 => '5' | 6 => '6' | 7 => '7' | 8 => '8' | _ => '9'

/-- The little-endian decimal digits of a number (empty for zero); the
fuel is an upper bound on the number itself. -/
def natDigits : Nat → Nat → List Char
  | 0, _ => []
  | fuel + 1, n =>
    if n = 0 then [] else digitChar (n % 10) :: natDigits fuel (n / 10)

/-- Render a number: little-endian decimal digits, colon-terminated. -/
def renderNat (n : Nat) : List Char := natDigits n n ++ [':']

/-- Numeric value of little-endian digits. -/
def digitsVal (ds : List Char) : Nat :=
  ds.foldr (fun c acc => digitVal c + 10 * acc) 0

/-- Parse a colon-terminated little-endian number. -/
def parseNat (cs : List Char) : Option (Nat × List Char) :=
  match cs.dropWhile isDig with
  | ':' :: rest => some (digitsVal (cs.takeWhile isDig), rest)
  | _ => none

theorem digitChar_facts :
    ∀ d, d < 10 → isDig (digitChar d) = true ∧ digitVal (digitChar d) = d := by
  decide

theorem natDigits_digits {fuel n : Nat} :
    ∀ c ∈ natDigits fuel n, isDig c = true := by
  induction fuel generalizing n with
  | zero => intro c hc; cases hc
  | succ fuel ih =>
    intro c hc
    unfold natDigits at hc
    split at hc
    · cases hc
    · rcases List.mem_cons.mp hc with rfl | hc
      · exact (digitChar_facts _ (Nat.mod_lt _ (by omega))).1
      · exact ih c hc

theorem digitsVal_natDigits {fuel n : Nat} (h : n ≤ fuel) :
    digitsVal (natDigits fuel n) = n := by
  induction fuel generalizing n with
  | zero =>
    interval_cases n
    rfl
  | succ fuel ih =>
    unfold natDigits
    by_cases hn : n = 0
    · simp [hn, digitsVal]
    · rw [if_neg hn]
      unfold digitsVal
      rw [List.foldr_cons]
      have hdiv : n / 10 ≤ fuel := by
        have h2 : n / 10 < n := Nat.div_lt_self (Nat.pos_of_ne_zero hn) (by decide)
        omega
      have := ih hdiv
      unfold digitsVal at this
      rw [this, (digitChar_facts (n % 10) (Nat.mod_lt _ (by omega))).2]
      exact Nat.mod_add_div n 10

theorem takeWhile_append_all {p : Char → Bool} {ds : List Char}
    (h : ∀ c ∈ ds, p c = true) {x : Char} (hx : p x = false)
    (rest : List Char) :
    (ds ++ x :: rest).takeWhile p = ds ∧
      (ds ++ x :: rest).dropWhile p = x :: rest := by
  induction ds with
  | nil => simp [List.takeWhile, List.dropWhile, hx]
  | cons d t ih =>
    have hd : p d = true := h d (List.mem_cons_self _ _)
    have iht := ih (fun c hc => h c (List.mem_cons_of_mem _ hc))
    simp only [List.cons_append, List.takeWhile_cons, List.dropWhile_cons, hd,
      if_true]
    exact ⟨by rw [iht.1], by rw [iht.2]⟩

theorem parseNat_render (n : Nat) (rest : List Char) :
    parseNat (renderNat n ++ rest) = some (n, rest) := by
  unfold parseNat renderNat
  have hcolon : isDig ':' = false := by decide
  have h : (natDigits n n ++ ':' :: rest).takeWhile isDig = natDigits n n ∧
      (natDigits n n ++ ':' :: rest).dropWhile isDig = ':' :: rest :=
    takeWhile_append_all natDigits_digits hcolon rest
  rw [List.append_assoc, List.singleton_append]
  rw [h.1, h.2, digitsVal_natDigits (Nat.le_refl n)]
  rfl

/-! ### String, integer and position atoms -/

/-- Render a string: its character count, then its characters verbatim
(so ids, keys and values round-trip unchanged). -/
def renderStr (s : String) : List Char := renderNat s.data.length ++ s.data

/-- Parse a length-prefixed string. -/
def parseStr (cs : List Char) : Option (String × List Char) :=
  match parseNat cs with
  | some (n, cs1) =>
    if n ≤ cs1.length then some (String.mk (cs1.take n), cs1.drop n) else none
  | none => none

theorem parseStr_render (s : String) (rest : List Char) :
    parseStr (renderStr s ++ rest) = some (s, rest) := by
  unfold parseStr renderStr
  rw [List.append_assoc]
  simp only [parseNat_render]
  have hlen : s.data.length ≤ (s.data ++ rest).length := by
    rw [List.length_append]
    omega
  rw [if_pos hlen, List.take_left, List.drop_left]

/-- Render an integer: an explicit sign, then the magnitude. -/
def renderInt : Int → List Char
  | .ofNat n => '+' :: renderNat n
  | .negSucc n => '-' :: renderNat (n + 1)

/-- Parse a signed integer. -/
def parseInt (cs : List Char) : Option (Int × List Char) :=
  match cs with
  | '+' :: r =>
    match parseNat r with
    | some (n, r1) => some ((n : Int), r1)
    | none => none
  | '-' :: r =>
    match parseNat r with
    | some (n, r1) => if n = 0 then none else some (-(n : Int), r1)
    | none => none
  | _ => none

theorem parseInt_render (i : Int) (rest : List Char) :
    parseInt (renderInt i ++ rest) = some (i, rest) := by
  cases i with
  | ofNat n =>
    show parseInt ('+' :: (renderNat n ++ rest)) = _
    simp [parseInt, parseNat_render]
  | negSucc n =>
    show parseInt ('-' :: (renderNat (n + 1) ++ rest)) = _
    simp only [parseInt, parseNat_render]
    rw [if_neg (by omega)]
    rw [Int.negSucc_eq]
    simp

/-- Render an optional position. -/
def renderPos : Option (Int × Int) → List Char
  | none => ['_']
  | some (x, y) => 'P' :: (renderInt x ++ renderInt y)

/-- Parse an optional position. -/
def parsePos (cs : List Char) : Option (Option (Int × Int) × List Char) :=
  match cs with
  | '_' :: r => some (none, r)
  | 'P' :: r =>
    match parseInt r with
    | some (x, r1) =>
      match parseInt r1 with
      | some (y, r2) => some (some (x, y), r2)
      | none => none
    | none => none
  | _ => none

theorem parsePos_render (p : Option (Int × Int)) (rest : List Char) :
    parsePos (renderPos p ++ rest) = some (p, rest) := by
  cases p with
  | none => rfl
  | some xy =>
    obtain ⟨x, y⟩ := xy
    show parsePos ('P' :: (renderInt x ++ renderInt y ++ rest)) = _
    simp only [parsePos, List.append_assoc, parseInt_render]

/-! ### Configuration values on the wire -/

mutual
/-- Render a configuration value: a one-character tag, then its payload. -/
def CV.render : CV → List Char
  | .str s => 'S' :: renderStr s
  | .num i => 'N' :: renderInt i
  | .boolean b => 'B' :: [if b then 't' else 'f']
  | .list xs => 'L' :: xs.render
  | .map m => 'M' :: m.render
/-- Render a value list: cons cells tagged c, terminated by e. -/
def CVList.render : CVList → List Char
  | .nil => ['e']
  | .cons v t => 'c' :: (v.render ++ t.render)
/-- Render a map: key/value cons cells tagged c, terminated by e. -/
def CVMap.render : CVMap → List Char
  | .nil => ['e']
  | .cons k v t => 'c' :: (renderStr k ++ v.render ++ t.render)
end

mutual
/-- Parse a configuration value (fuel-bounded recursion). -/
def parseCV : Nat → List Char → Option (CV × List Char)
  | 0, _ => none
  | _ + 1, 'S' :: r =>
    match parseStr r with
    | some (s, r1) => some (.str s, r1)
    | none => none
  | _ + 1, 'N' :: r =>
    match parseInt r with
    | some (i, r1) => some (.num i, r1)
    | none => none
  | _ + 1, 'B' :: 't' :: r => some (.boolean true, r)
  | _ + 1, 'B' :: 'f' :: r => some (.boolean false, r)
  | fuel + 1, 'L' :: r =>
    match parseCVList fuel r with
    | some (xs, r1) => some (.list xs, r1)
    | none => none
  | fuel + 1, 'M' :: r =>
    match parseCVMap fuel r with
    | some (m, r1) => some (.map m, r1)
    | none => none
  | _ + 1, _ => none
/-- Parse a configuration value list (fuel-bounded recursion). -/
def parseCVList : Nat → List Char → Option (CVList × List Char)
  | 0, _ => none
  | _ + 1, 'e' :: r => some (.nil, r)
  | fuel + 1, 'c' :: r =>
    match parseCV fuel r with
    | some (v, r1) =>
      match parseCVList fuel r1 with
      | some (t, r2) => some (.cons v t, r2)
      | none => none
    | none => none
  | _ + 1, _ => none
/-- Parse a configuration map (fuel-bounded recursion). -/
def parseCVMap : Nat → List Char → Option (CVMap × List Char)
  | 0, _ => none
  | _ + 1, 'e' :: r => some (.nil, r)
  | fuel + 1, 'c' :: r =>
    match parseStr r with
    | some (k, r1) =>
      match parseCV fuel r1 with
      | some (v, r2) =>
        match parseCVMap fuel r2 with
        | some (t, r3) => some (.cons k v t, r3)
        | none => none
      | none => none
    | none => none
  | _ + 1, _ => none
end

mutual
theorem cv_parse_render : ∀ (v : CV) (fuel : Nat) (rest : List Char),
    (CV.render v).length ≤ fuel →
    parseCV fuel (v.render ++ rest) = some (v, rest)
  | .str s, fuel, rest, h => by
    match fuel, h with
    | fuel + 1, _ =>
      show parseCV (fuel + 1) ('S' :: (renderStr s ++ rest)) = _
      simp only [parseCV, parseStr_render]
  | .num i, fuel, rest, h => by
    match fuel, h with
    | fuel + 1, _ =>
      show parseCV (fuel + 1) ('N' :: (renderInt i ++ rest)) = _
      simp only [parseCV, parseInt_render]
  | .boolean b, fuel, rest, h => by
    match fuel, h with
    | fuel + 1, _ =>
      cases b
      · show parseCV (fuel + 1) ('B' :: 'f' :: rest) = _
        rfl
      · show parseCV (fuel + 1) ('B' :: 't' :: rest) = _
        rfl
  | .list xs, fuel, rest, h => by
    match fuel, h with
    | fuel + 1, h =>
      show parseCV (fuel + 1) ('L' :: (CVList.render xs ++ rest)) = _
      have hxs : (CVList.render xs).length ≤ fuel := by
        have : (CV.render (.list xs)).length = (CVList.render xs).length + 1 := by
          show (('L' :: CVList.render xs) : List Char).length = _
          simp
        omega
      simp only [parseCV, cvlist_parse_render xs fuel rest hxs]
  | .map m, fuel, rest, h => by
    match fuel, h with
    | fuel + 1, h =>
      show parseCV (fuel + 1) ('M' :: (CVMap.render m ++ rest)) = _
      have hm : (CVMap.render m).length ≤ fuel := by
        have : (CV.render (.map m)).length = (CVMap.render m).length + 1 := by
          show (('M' :: CVMap.render m) : List Char).length = _
          simp
        omega
      simp only [parseCV, cvmap_parse_render m fuel rest hm]
theorem cvlist_parse_render : ∀ (xs : CVList) (fuel : Nat) (rest : List Char),
    (CVList.render xs).length ≤ fuel →
    parseCVList fuel (xs.render ++ rest) = some (xs, rest)
  | .nil, fuel, rest, h => by
    match fuel, h with
    | fuel + 1, _ =>
      show parseCVList (fuel + 1) ('e' :: rest) = _
      rfl
  | .cons v t, fuel, rest, h => by
    match fuel, h with
    | fuel + 1, h =>
      show parseCVList (fuel + 1) ('c' :: (v.render ++ t.render ++ rest)) = _
      have hlen : (CVList.render (.cons v t)).length =
          (CV.render v).length + (CVList.render t).length + 1 := by
        show (('c' :: (CV.render v ++ CVList.render t)) : List Char).length = _
        simp
      have hv : (CV.render v).length ≤ fuel := by omega
      have ht : (CVList.render t).length ≤ fuel := by omega
      simp only [parseCVList, List.append_assoc,
        cv_parse_render v fuel (CVList.render t ++ rest) hv,
        cvlist_parse_render t fuel rest ht]
theorem cvmap_parse_render : ∀ (m : CVMap) (fuel : Nat) (rest : List Char),
    (CVMap.render m).length ≤ fuel →
    parseCVMap fuel (m.render ++ rest) = some (m, rest)
  | .nil, fuel, rest, h => by
    match fuel, h with
    | fuel + 1, _ =>
      show parseCVMap (fuel + 1) ('e' :: rest) = _
      rfl
  | .cons k v t, fuel, rest, h => by
    match fuel, h with
    | fuel + 1, h =>
      show parseCVMap (fuel + 1)
        ('c' :: (renderStr k ++ CV.render v ++ CVMap.render t ++ rest)) = _
      have hlen : (CVMap.render (.cons k v t)).length =
          (renderStr k).length + (CV.render v).length +
            (CVMap.render t).length + 1 := by
        show (('c' :: (renderStr k ++ CV.render v ++ CVMap.render t)) :
          List Char).length = _
        simp
        omega
      have hv : (CV.render v).length ≤ fuel := by omega
      have ht : (CVMap.render t).length ≤ fuel := by omega
      simp only [parseCVMap, List.append_assoc, parseStr_render,
        cv_parse_render v fuel (CVMap.render t ++ rest) hv,
        cvmap_parse_render t fuel rest ht]
end

/-! ### Blocks, edges and whole documents on the wire -/

/-- Render one block: id, type, config, position. -/
def renderBlock (b : Block) : List Char :=
  renderStr b.id ++ renderStr b.typeTag ++ CVMap.render b.config ++
    renderPos b.position

/-- Parse one block. -/
def parseBlock (cs : List Char) : Option (Block × List Char) :=
  match parseStr cs with
  | some (i, r1) =>
    match parseStr r1 with
    | some (ty, r2) =>
      match parseCVMap r2.length r2 with
      | some (cfg, r3) =>
        match parsePos r3 with
        | some (pos, r4) => some (Block.mk i ty cfg pos, r4)
        | none => none
      | none => none
    | none => none
  | none => none

theorem parseBlock_render (b : Block) (rest : List Char) :
    parseBlock (renderBlock b ++ rest) = some (b, rest) := by
  obtain ⟨i, ty, cfg, pos⟩ := b
  show parseBlock (((renderStr i ++ renderStr ty ++ CVMap.render cfg ++
    renderPos pos) ++ rest)) = _
  unfold parseBlock
  simp only [List.append_assoc, parseStr_render]
  have hfuel : (CVMap.render cfg).length ≤
      (CVMap.render cfg ++ (renderPos pos ++ rest)).length := by
    simp
  simp only [cvmap_parse_render cfg _ _ hfuel, parsePos_render]

/-- Render one edge: its four endpoint fields. -/
def renderEdge (e : Edge) : List Char :=
  renderStr e.src ++ renderStr e.srcPort ++ renderStr e.tgt ++
    renderStr e.tgtPort

/-- Parse one edge. -/
def parseEdge (cs : List Char) : Option (Edge × List Char) :=
  match parseStr cs with
  | some (s, r1) =>
    match parseStr r1 with
    | some (sp, r2) =>
      match parseStr r2 with
      | some (t, r3) =>
        match parseStr r3 with
        | some (tp, r4) => some (Edge.mk s sp t tp, r4)
        | none => none
      | none => none
    | none => none
  | none => none

theorem parseEdge_render (e : Edge) (rest : List Char) :
    parseEdge (renderEdge e ++ rest) = some (e, rest) := by
  obtain ⟨s, sp, t, tp⟩ := e
  show parseEdge (((renderStr s ++ renderStr sp ++ renderStr t ++
    renderStr tp) ++ rest)) = _
  unfold parseEdge
  simp only [List.append_assoc, parseStr_render]

/-- Render a counted sequence. -/
def renderMany {α : Type} (f : α → List Char) (l : List α) : List Char :=
  renderNat l.length ++ l.foldr (fun a acc => f a ++ acc) []

/-- Parse a fixed number of elements. -/
def parseMany {α : Type} (p : List Char → Option (α × List Char)) :
    Nat → List Char → Option (List α × List Char)
  | 0, cs => some ([], cs)
  | n + 1, cs =>
    match p cs with
    | some (a, cs1) =>
      match parseMany p n cs1 with
      | some (as, cs2) => some (a :: as, cs2)
      | none => none
    | none => none

/-- Parse a counted sequence. -/
def parseManyCounted {α : Type} (p : List Char → Option (α × List Char))
    (cs : List Char) : Option (List α × List Char) :=
  match parseNat cs with
  | some (n, cs1) => parseMany p n cs1
  | none => none

theorem parseMany_render {α : Type} {p : List Char → Option (α × List Char)}
    {f : α → List Char} {l : List α}
    (hp : ∀ a ∈ l, ∀ r, p (f a ++ r) = some (a, r)) (rest : List Char) :
    parseMany p l.length
      (l.foldr (fun a acc => f a ++ acc) [] ++ rest) = some (l, rest) := by
  induction l with
  | nil => rfl
  | cons a t ih =>
    show parseMany p (t.length + 1)
      ((f a ++ t.foldr (fun a acc => f a ++ acc) []) ++ rest) = _
    unfold parseMany
    rw [List.append_assoc]
    simp only [hp a (List.mem_cons_self _ _),
      ih (fun x hx r => hp x (List.mem_cons_of_mem _ hx) r)]

theorem parseManyCounted_render {α : Type}
    {p : List Char → Option (α × List Char)} {f : α → List Char} {l : List α}
    (hp : ∀ a ∈ l, ∀ r, p (f a ++ r) = some (a, r)) (rest : List Char) :
    parseManyCounted p (renderMany f l ++ rest) = some (l, rest) := by
  unfold parseManyCounted renderMany
  rw [List.append_assoc]
  simp only [parseNat_render]
  exact parseMany_render hp rest

/-- The schema version tag this codec understands; parsing any other
version is rejected (the spec's UnsupportedVersion failure). -/
def schemaVersion : String := "simgraph.v1"

/-- Render a whole graph document: schema version, metadata, blocks,
edges, in that fixed key order. -/
def renderGraph (g : Graph) : List Char :=
  renderStr schemaVersion ++ renderStr g.name ++ renderNat g.version ++
    renderMany renderBlock g.blocks ++ renderMany renderEdge g.edges

/-- Parse a whole graph document. -/
def parseGraph (cs : List Char) : Option (Graph × List Char) :=
  match parseStr cs with
  | some (v, r0) =>
    if v = schemaVersion then
      match parseStr r0 with
      | some (nm, r1) =>
        match parseNat r1 with
        | some (ver, r2) =>
          match parseManyCounted parseBlock r2 with
          | some (bs, r3) =>
            match parseManyCounted parseEdge r3 with
            | some (es, r4) => some (Graph.mk nm ver bs es, r4)
            | none => none
          | none => none
        | none => none
      | none => none
    else none
  | none => none

theorem parseGraph_render (g : Graph) (rest : List Char) :
    parseGraph (renderGraph g ++ rest) = some (g, rest) := by
  obtain ⟨nm, ver, bs, es⟩ := g
  show parseGraph ((renderStr schemaVersion ++ renderStr nm ++
    renderNat ver ++ renderMany renderBlock bs ++
    renderMany renderEdge es) ++ rest) = _
  unfold parseGraph
  simp only [List.append_assoc, parseStr_render, parseNat_render, if_pos rfl,
    if_true,
    parseManyCounted_render (fun b _ r => parseBlock_render b r),
    parseManyCounted_render (fun e _ r => parseEdge_render e r)]

/-- Block comparison by id, the canonical serialization order. -/
def blockLe (a b : Block) : Bool := strLe a.id b.id

/-- The canonical form of a graph: blocks sorted by id. -/
def canon (g : Graph) : Graph := { g with blocks := sortLe blockLe g.blocks }

/-- Modelled from the spec, section 4.2: canonical serialization — stable
document key order, blocks ordered by id. -/
def serialize (g : Graph) : String := String.mk (renderGraph (canon g))

/-- Modelled from the spec, sections 4.2 and 6: parse a textual document
into a Graph, rejecting unknown schema versions and trailing garbage. -/
def parse (s : String) : Option Graph :=
  match parseGraph s.data with
  | some (g, []) => some g
  | _ => none

theorem canon_idem (g : Graph) : canon (canon g) = canon g := by
  have htot : ∀ x y : Block, blockLe x y = true ∨ blockLe y x = true :=
    fun x y => strLe_total x.id y.id
  have htrans : ∀ x y z : Block,
      blockLe x y = true → blockLe y z = true → blockLe x z = true :=
    fun x y z hxy hyz => @strLe_trans x.id y.id z.id hxy hyz
  have hs : sortLe blockLe (sortLe blockLe g.blocks) = sortLe blockLe g.blocks :=
    sortLe_of_sorted (sortLe_sorted htot htrans g.blocks)
  show ({ g with blocks := sortLe blockLe (sortLe blockLe g.blocks) } : Graph) =
    { g with blocks := sortLe blockLe g.blocks }
  rw [hs]

/-- C1: the codec round-trips — parsing a serialized valid graph succeeds
and yields a graph structurally equal to the original (metadata, blocks
with their ids, types, configs and positions, and edges all preserved, up
to the canonical reordering of blocks by id), and serialization is
canonical: re-serializing the parsed graph reproduces the exact same text,
character for character. -/
theorem claim_C1 (g : Graph) (_valid : g.Valid) :
    ∃ g2, parse (serialize g) = some g2 ∧ g2.Equiv g ∧
      serialize g2 = serialize g := by
  refine ⟨canon g, ?_, ?_, ?_⟩
  · have hpg : parseGraph (renderGraph (canon g)) = some (canon g, []) := by
      have := parseGraph_render (canon g) []
      rwa [List.append_nil] at this
    show parse (String.mk (renderGraph (canon g))) = some (canon g)
    unfold parse
    simp only [hpg]
  · exact ⟨rfl, rfl, sortLe_perm blockLe g.blocks, List.Perm.refl _⟩
  · show serialize (canon g) = serialize g
    unfold serialize
    rw [canon_idem]

/-- C1 witness: the round trip at a concrete valid graph with configs,
positions and edges. -/
theorem claim_C1_witness :
    c2Base.Valid ∧
      ∃ g2, parse (serialize c2Base) = some g2 ∧ g2.Equiv c2Base ∧
        serialize g2 = serialize c2Base :=
  ⟨by decide, claim_C1 c2Base (by decide)⟩
